import Mathlib

/-!
# Verification of the `url_normalize` URL normalizer

Shallow embedding of `src/normalizer.rs` and `src/error.rs` of the
`howeih/url_normalize` crate, together with models of its external
collaborators (the `url` parser, the `urlencoding` percent codec and the
`regex` engine), and theorems settling the specification claims.

Conventions of the embedding:
* Rust `Vec<char>` buffers become `Array Char`; the in-place sentinel `'\0'`
  is `nul` below.
* Rust `isize` values (segment offsets, which can be `-1`) become `Int`.
* A Rust panic (out-of-bounds indexing, arithmetic underflow) is modelled by
  returning `none`; fallible functions return `Except NormalizeError`.
* Rust `while` loops are encoded as fuel-indexed recursions; at every call
  site the fuel supplied strictly exceeds the number of iterations the loop
  can perform (each loop advances a cursor bounded by the buffer size), so
  the fuel-exhaustion branch is never taken.
-/

set_option linter.unusedVariables false

namespace UrlNorm

/-- The NUL sentinel character the path normalizer writes over `/` separators. -/
def nul : Char := Char.ofNat 0

/-- Decimal digit list of a natural number, most significant digit first;
model of Rust `format!("{}", n)` for unsigned integers. -/
def natDigits (n : Nat) : List Char :=
  if h : n < 10 then [Char.ofNat (48 + n)]
  else
    have : n / 10 < n := Nat.div_lt_self (by omega) (by omega)
    natDigits (n / 10) ++ [Char.ofNat (48 + n % 10)]

/-- Reads a decimal digit list back into a natural number. -/
def natFromDigits (ds : List Char) : Nat :=
  ds.foldl (fun a c => a * 10 + (c.toNat - 48)) 0

/-- Splits a character list at the first occurrence of `sep`:
`some (before, after)` when `sep` occurs, `none` otherwise. -/
def splitFirst (sep : Char) : List Char → Option (List Char × List Char)
  | [] => none
  | c :: rest =>
    if c = sep then some ([], rest)
    else
      match splitFirst sep rest with
      | none => none
      | some (a, b) => some (c :: a, b)

/-- Splits a character list at every occurrence of `sep`; model of Rust
`str::split` with a one-character pattern (never returns an empty list,
and `[] ↦ [[]]`). -/
def splitOnChar (sep : Char) : List Char → List (List Char)
  | [] => [[]]
  | c :: rest =>
    let r := splitOnChar sep rest
    if c = sep then [] :: r
    else
      match r with
      | [] => [[c]]
      | g :: gs => (c :: g) :: gs

/-- Interleaves `sep` between the groups; inverse of `splitOnChar`. -/
def joinWithChar (sep : Char) : List (List Char) → List Char
  | [] => []
  | [g] => g
  | g :: gs => g ++ sep :: joinWithChar sep gs

/-- Model of Rust `Vec::join` / `[String]::join` on strings. -/
def joinStrings (sep : String) : List String → String
  | [] => ""
  | [s] => s
  | s :: rest => s ++ sep ++ joinStrings sep rest

/-- Model of Rust `str::trim`: strip whitespace from both ends. -/
def trimModel (cs : List Char) : List Char :=
  ((cs.dropWhile Char.isWhitespace).reverse.dropWhile Char.isWhitespace).reverse

/-! ## Model of the external `urlencoding` collaborator -/

namespace Urlencoding

/-- UTF-8 bytes of one scalar value (each byte as a `Nat < 256`). -/
def utf8Bytes (c : Char) : List Nat :=
  let n := c.toNat
  if n < 0x80 then [n]
  else if n < 0x800 then [0xC0 + n / 64, 0x80 + n % 64]
  else if n < 0x10000 then [0xE0 + n / 4096, 0x80 + (n / 64) % 64, 0x80 + n % 64]
  else [0xF0 + n / 0x40000, 0x80 + (n / 4096) % 64, 0x80 + (n / 64) % 64, 0x80 + n % 64]

/-- UTF-8 byte sequence of a character list. -/
def strBytes (cs : List Char) : List Nat :=
  (cs.map utf8Bytes).flatten

/-- Value of one hexadecimal digit byte (accepts `0-9`, `a-f`, `A-F`). -/
def hexVal (b : Nat) : Option Nat :=
  if 48 ≤ b ∧ b ≤ 57 then some (b - 48)
  else if 97 ≤ b ∧ b ≤ 102 then some (b - 87)
  else if 65 ≤ b ∧ b ≤ 70 then some (b - 55)
  else none

/-- Percent-decoding on raw bytes; an invalid `%`-sequence keeps the `%`
literally and continues with the following byte, as `urlencoding::decode_binary`
does. -/
def percentDecode : List Nat → List Nat
  | b :: h1 :: h2 :: rest =>
    if b = 37 then
      match hexVal h1, hexVal h2 with
      | some a, some v => (16 * a + v) :: percentDecode rest
      | _, _ => 37 :: percentDecode (h1 :: h2 :: rest)
    else b :: percentDecode (h1 :: h2 :: rest)
  | b :: rest => b :: percentDecode rest
  | [] => []

/-- Decodes the UTF-8 sequence starting with lead byte `b`: the scalar value
and the remaining bytes. Rejects stray continuation bytes, overlong forms,
surrogates and values past U+10FFFF, like `String::from_utf8`. -/
def utf8Step (b : Nat) (rest : List Nat) : Option (Nat × List Nat) :=
  if b < 128 then some (b, rest)
  else if b < 194 then none
  else if b < 224 then
    match rest with
    | b1 :: r =>
      if 128 ≤ b1 ∧ b1 < 192 then some ((b - 192) * 64 + (b1 - 128), r) else none
    | [] => none
  else if b < 240 then
    match rest with
    | b1 :: b2 :: r =>
      if (if b = 224 then 160 ≤ b1 ∧ b1 < 192
          else if b = 237 then 128 ≤ b1 ∧ b1 < 160
          else 128 ≤ b1 ∧ b1 < 192) ∧ (128 ≤ b2 ∧ b2 < 192) then
        some ((b - 224) * 4096 + (b1 - 128) * 64 + (b2 - 128), r)
      else none
    | _ => none
  else if b < 245 then
    match rest with
    | b1 :: b2 :: b3 :: r =>
      if (if b = 240 then 144 ≤ b1 ∧ b1 < 192
          else if b = 244 then 128 ≤ b1 ∧ b1 < 144
          else 128 ≤ b1 ∧ b1 < 192) ∧ (128 ≤ b2 ∧ b2 < 192) ∧ (128 ≤ b3 ∧ b3 < 192) then
        some ((b - 240) * 262144 + (b1 - 128) * 4096 + (b2 - 128) * 64 + (b3 - 128), r)
      else none
    | _ => none
  else none

/-- Fuel-indexed UTF-8 decoding loop. Each `utf8Step` consumes at least the
lead byte, so with fuel at least the byte-list length the fuel-exhaustion
branch is unreachable. -/
def utf8DecodeF : Nat → List Nat → Option (List Char)
  | _, [] => some []
  | 0, _ :: _ => none
  | fuel + 1, b :: rest =>
    match utf8Step b rest with
    | none => none
    | some (n, r) => (utf8DecodeF fuel r).map (fun cs => Char.ofNat n :: cs)

/-- Strict UTF-8 validation and decoding of a byte list (rejects overlong
forms, surrogates and out-of-range values, like `String::from_utf8`). -/
def utf8Decode (bs : List Nat) : Option (List Char) :=
  utf8DecodeF bs.length bs

/-- Model of `urlencoding::decode`: percent-decode the bytes, then validate
them as UTF-8; `none` models the `FromUtf8Error` case. -/
def decode (cs : List Char) : Option (List Char) :=
  utf8Decode (percentDecode (strBytes cs))

/-- Bytes kept verbatim by `urlencoding::encode`: `A-Z a-z 0-9 - . _ ~`. -/
def isUnreservedByte (b : Nat) : Bool :=
  (65 ≤ b && b ≤ 90) || (97 ≤ b && b ≤ 122) || (48 ≤ b && b ≤ 57) ||
    b == 45 || b == 46 || b == 95 || b == 126

/-- Upper-case hexadecimal digit character of `n < 16`. -/
def hexUpper (n : Nat) : Char :=
  if n < 10 then Char.ofNat (48 + n) else Char.ofNat (55 + n)

/-- Percent-encoding of one byte, as `urlencoding::encode` emits it. -/
def encodeByte (b : Nat) : List Char :=
  if isUnreservedByte b then [Char.ofNat b] else ['%', hexUpper (b / 16), hexUpper (b % 16)]

/-- Model of `urlencoding::encode`. -/
def encode (s : String) : String :=
  String.mk (((strBytes s.toList).map encodeByte).flatten)

end Urlencoding

/-! ## Model of the external `regex` collaborator -/

/-- Abstract regular-expression engine: `compile` may fail (the modelled
`Regex::new` error), `isMatch` is `Regex::is_match` against a compiled
pattern. All theorems below quantify over the engine. -/
structure RegexEngine (R : Type) where
  compile : String → Option R
  isMatch : R → String → Bool

/-- An engine whose patterns never compile to anything useful; used only to
instantiate runs that pass no removal patterns at all. -/
def noRegex : RegexEngine Unit :=
  { compile := fun _ => none, isMatch := fun _ _ => false }

/-- An engine used for concrete witnesses: the pattern `"["` fails to compile
(as it does for `regex::Regex::new`), any other pattern matches exactly the
keys it is a prefix of. -/
def testEngine : RegexEngine String :=
  { compile := fun s => if s = "[" then none else some s
    isMatch := fun re k => re.toList.isPrefixOf k.toList }

/-! ## `src/error.rs` -/

/-- `NormalizeError` of `src/error.rs`. -/
inductive NormalizeError where
  | UrlParseError : NormalizeError
  | InternalError : NormalizeError
  | UrlEncodeError : NormalizeError
  | RegexParseError : String → NormalizeError
deriving DecidableEq, Repr

/-! ## The parsed-URL data model -/

/-- Modelled from the spec: the structured fields produced by the external
URL-parsing component (`url::Url`) — scheme, optional host, optional port,
path, optional query. Fragments, user-info and host case-folding are not
modelled; every URL appearing in a theorem below is untouched by those
features. -/
structure ParsedUrl where
  scheme : String
  host : Option String
  port : Option Nat
  path : String
  query : Option String
deriving DecidableEq, Repr

/-! ## Query canonicalization (`create_parameter_map`, `split_token`) -/

/-- Strict lexicographic order on character lists by code point; on UTF-8
encoded text this coincides with the byte-lexicographic `Ord` that
`BTreeMap<String, _>` sorts by. -/
def listLt : List Char → List Char → Bool
  | [], [] => false
  | [], _ :: _ => true
  | _ :: _, [] => false
  | a :: as, b :: bs =>
    if a.toNat < b.toNat then true
    else if a.toNat = b.toNat then listLt as bs
    else false

/-- The `BTreeMap<String, String>` key order. -/
def strLt (a b : String) : Bool :=
  listLt a.toList b.toList

/-- `BTreeMap::insert` on the sorted-association-list model of
`BTreeMap<String, String>`: keys strictly ascending in the byte
(= code-point) order, an existing binding of the same key is replaced. -/
def insertSorted (k v : String) : List (String × String) → List (String × String)
  | [] => [(k, v)]
  | (k1, v1) :: rest =>
    if strLt k k1 then (k, v) :: (k1, v1) :: rest
    else if k = k1 then (k, v) :: rest
    else (k1, v1) :: insertSorted k v rest

/-- Lookup in the association-list model of `BTreeMap<String, String>`. -/
def lookupKey (k : String) : List (String × String) → Option String
  | [] => none
  | (k1, v1) :: rest => if k1 = k then some v1 else lookupKey k rest

/-- `UrlNormalizer::split_token` (`normalizer.rs:85`). The Rust code calls
`pair.chars().nth(0).unwrap()` on a pair already known to be non-empty. -/
def split_token (pair : String) (tokens : List String) : Option (String × String) :=
  match tokens with
  | [token_0] =>
    if pair.toList.head? = some '=' then some ("", token_0) else some (token_0, "")
  | [t0, t1] => some (t0, t1)
  | _ => none

/-- `pair.splitn(2, "=")`: at most two parts, split at the first `=`. -/
def splitnEq (pair : List Char) : List (List Char) :=
  match splitFirst '=' pair with
  | none => [pair]
  | some (a, b) => [a, b]

/-- The decoded prefix of a pair's parts: decode each part and keep the
longest prefix of successfully decoded parts (`take_while(|t| t.is_ok())`). -/
def decodedParts (pair : List Char) : List String :=
  (((splitnEq pair).map Urlencoding.decode).takeWhile Option.isSome).map
    (fun o => String.mk (o.getD []))

/-- The `(key, value)` token the loop body of `create_parameter_map` extracts
from one non-empty `&`-separated pair. -/
def pairTokens (pair : List Char) : Option (String × String) :=
  split_token (String.mk pair) (decodedParts pair)

/-- The `'pair` loop of `create_parameter_map` (`normalizer.rs:120`):
zero-length pairs are skipped, a matched decoded key is skipped, everything
else is inserted into the map (later insertion overwrites). -/
def processPairs {R : Type} (E : RegexEngine R) (rules : List R) :
    List (List Char) → List (String × String) → List (String × String)
  | [], params => params
  | pair :: rest, params =>
    if pair.length < 1 then processPairs E rules rest params
    else
      match pairTokens pair with
      | none => processPairs E rules rest params
      | some kv =>
        if rules.any (fun re => E.isMatch re kv.1) then processPairs E rules rest params
        else processPairs E rules rest (insertSorted kv.1 kv.2 params)

/-- The pattern-compilation loop of `create_parameter_map`
(`normalizer.rs:113`): the first pattern that fails to compile aborts with
`RegexParseError` carrying that pattern. -/
def compileAll {R : Type} (E : RegexEngine R) : List String → Except NormalizeError (List R)
  | [] => Except.ok []
  | r :: rest =>
    match E.compile r with
    | none => Except.error (NormalizeError.RegexParseError r)
    | some re =>
      match compileAll E rest with
      | Except.error e => Except.error e
      | Except.ok l => Except.ok (re :: l)

/-- Compilation of an optional pattern list (`if let Some(..)` at
`normalizer.rs:113`). -/
def compileRules {R : Type} (E : RegexEngine R) :
    Option (List String) → Except NormalizeError (List R)
  | none => Except.ok []
  | some rs => compileAll E rs

/-- `UrlNormalizer::create_parameter_map` (`normalizer.rs:102`). -/
def create_parameter_map {R : Type} (E : RegexEngine R) (query : Option String)
    (remove_param_regex : Option (List String)) :
    Except NormalizeError (List (String × String)) :=
  match query with
  | none => Except.ok []
  | some query_string =>
    match compileRules E remove_param_regex with
    | Except.error e => Except.error e
    | Except.ok remove_rules =>
      Except.ok (processPairs E remove_rules (splitOnChar '&' query_string.toList) [])

/-! ## Reassembly (`to_normalized_url`) -/

/-- `UrlNormalizer::to_normalized_url` (`normalizer.rs:59`). -/
def to_normalized_url (url : ParsedUrl) (params : List (String × String))
    (normalized_path : String) : String :=
  let host := match url.host with | some h => h | none => ""
  let port := match url.port with
    | some p => if p = 80 then "" else ":" ++ String.mk (natDigits p)
    | none => ""
  let query_string := params.map (fun p => p.1 ++ "=" ++ p.2)
  let joined := joinStrings "&" query_string
  let query_string_result := if query_string.isEmpty then joined else "?" ++ joined
  url.scheme ++ "://" ++ host ++ port ++ normalized_path ++ query_string_result

/-! ## Path normalization (`needs_normalization`, `split`, `remove_dots`,
`maybe_add_leading_dot`, `join`, `normalize_path`)

The Rust code manipulates a `Vec<char>` buffer and a `Vec<isize>` segment
table in place; reads through an `isize` cast to `usize` panic when the value
is `-1` (it wraps to `usize::MAX`) or past the end of the buffer. `rdGet`
models such a read, returning `none` for the panic. -/

/-- Bounds-checked read `path[i as usize]` for an `isize` index `i`;
`none` models the out-of-bounds panic (including `i = -1`). -/
def rdGet (path : Array Char) (i : Int) : Option Char :=
  if 0 ≤ i ∧ i < (path.size : Int) then some (path.getD i.toNat nul) else none

/-- Leading-slash scan of `needs_normalization` (`normalizer.rs:181`). -/
def nnLead (path : Array Char) (e : Nat) : Nat → Nat → Nat
  | 0, p => p
  | fuel + 1, p =>
    if p ≤ e then
      if path.getD p nul = '/' then nnLead path e fuel (p + 1) else p
    else p

/-- Duplicate-slash scan of `needs_normalization` (`normalizer.rs:208`):
each extra `/` clears the `normal` flag. -/
def nnSlashes (path : Array Char) (e : Nat) : Nat → Nat → Bool → Nat × Bool
  | 0, p, normal => (p, normal)
  | fuel + 1, p, normal =>
    if p ≤ e then
      if path.getD p nul = '/' then nnSlashes path e fuel (p + 1) false
      else (p, normal)
    else (p, normal)

/-- Segment-skipping scan of `needs_normalization` (`normalizer.rs:202`). -/
def nnSkipSeg (path : Array Char) (e : Nat) : Nat → Nat → Bool → Nat × Bool
  | 0, p, normal => (p, normal)
  | fuel + 1, p, normal =>
    if p ≤ e then
      if path.getD p nul ≠ '/' then nnSkipSeg path e fuel (p + 1) normal
      else nnSlashes path e fuel (p + 1) normal
    else (p, normal)

/-- Main segment loop of `needs_normalization` (`normalizer.rs:192`):
counts segments and clears `normal` on a `.`/`..` segment. -/
def nnMain (path : Array Char) (e : Nat) : Nat → Nat → Nat → Bool → Nat × Bool
  | 0, _, ns, normal => (ns, normal)
  | fuel + 1, p, ns, normal =>
    if p ≤ e then
      let isDot : Bool := path.getD p nul == '.' &&
        (p == e || path.getD (p + 1) nul == '/' ||
          (path.getD (p + 1) nul == '.' && (p + 1 == e || path.getD (p + 2) nul == '/')))
      let normal1 := if isDot then false else normal
      let pr := nnSkipSeg path e (e + 2) p normal1
      nnMain path e fuel pr.1 (ns + 1) pr.2
    else (ns, normal)

/-- `UrlNormalizer::needs_normalization` (`normalizer.rs:177`): `-1` when the
path is already normal, else the number of segments. The caller guarantees a
non-empty buffer (on an empty one the Rust code underflows `path.len() - 1`
and panics; `normalize_path` models that case before calling this). -/
def needs_normalization (path : Array Char) : Int :=
  let e := path.size - 1
  let p := nnLead path e (e + 2) 0
  let normal : Bool := if p > 1 then false else true
  let r := nnMain path e (e + 2) p 0 normal
  if r.2 then -1 else (r.1 : Int)

/-- Leading-slash pass of `split` (`normalizer.rs:231`): leading slashes are
overwritten with the sentinel. -/
def spLead (e : Nat) : Nat → Array Char → Nat → Array Char × Nat
  | 0, path, p => (path, p)
  | fuel + 1, path, p =>
    if p ≤ e then
      if path.getD p nul = '/' then spLead e fuel (path.setD p nul) (p + 1)
      else (path, p)
    else (path, p)

/-- Duplicate-slash pass inside `split` (`normalizer.rs:250`). -/
def spSlashes (e : Nat) : Nat → Array Char → Nat → Array Char × Nat
  | 0, path, p => (path, p)
  | fuel + 1, path, p =>
    if p ≤ e then
      if path.getD p nul = '/' then spSlashes e fuel (path.setD p nul) (p + 1)
      else (path, p)
    else (path, p)

/-- Scan to the end of the current segment inside `split`
(`normalizer.rs:243`), replacing the terminating `/` (and any duplicates)
with the sentinel. -/
def spSeg (e : Nat) : Nat → Array Char → Nat → Array Char × Nat
  | 0, path, p => (path, p)
  | fuel + 1, path, p =>
    if p ≤ e then
      if path.getD p nul ≠ '/' then spSeg e fuel path (p + 1)
      else spSlashes e (e + 2) (path.setD p nul) (p + 1)
    else (path, p)

/-- Main loop of `split` (`normalizer.rs:239`): records each segment start in
`segs`. Writing `segs[i]` out of bounds is a Rust panic, modelled as `none`. -/
def spMain (e : Nat) : Nat → Array Char → Array Int → Nat → Nat →
    Option (Array Char × Array Int × Nat)
  | 0, path, segs, _, i => some (path, segs, i)
  | fuel + 1, path, segs, p, i =>
    if p ≤ e then
      if i < segs.size then
        let segs1 := segs.setD i (p : Int)
        let pr := spSeg e (e + 2) path (p + 1)
        spMain e fuel pr.1 segs1 pr.2 (i + 1)
      else none
    else some (path, segs, i)

/-- `UrlNormalizer::split` (`normalizer.rs:226`). -/
def split (path0 : Array Char) (seg_size : Nat) :
    Option (Except NormalizeError (Array Char × Array Int)) :=
  let segs : Array Int := Array.mkArray seg_size 0
  let e := path0.size - 1
  let pr := spLead e (e + 2) path0 0
  match spMain e (e + 2) pr.1 segs pr.2 0 with
  | none => none
  | some (path, segs1, i) =>
    if i ≠ segs1.size then some (Except.error NormalizeError.InternalError)
    else some (Except.ok (path, segs1))

/-- Backward scan of `remove_dots` (`normalizer.rs:299`): starting from
`k = i - 1`, stop at the first kept segment, remembering the index of the
last removed one seen (`j` stays `0` when `segs[i-1]` is kept). -/
def rdJ (segs : Array Int) : Nat → Nat → Nat
  | 0, j => j
  | k + 1, j => if segs.getD (k + 1) 0 ≠ -1 then j else rdJ segs k (k + 1)

/-- Dot-classification loop of `remove_dots` (`normalizer.rs:272`): advance
`i` until a `.`/`..` segment is found (`dots = 1`/`2`) or the table is
exhausted (`dots = 0`). Reading `path` at a removed segment offset (`-1`)
panics: `none`. -/
def rdInner (path : Array Char) (segs : Array Int) (e ns : Nat) :
    Nat → Nat → Option (Nat × Nat)
  | 0, i => some (i, 0)
  | fuel + 1, i =>
    match rdGet path (segs.getD i 0) with
    | none => none
    | some c =>
      let p := (segs.getD i 0).toNat
      if c = '.' ∧ p = e then some (i, 1)
      else if c = '.' then
        match rdGet path ((p : Int) + 1) with
        | none => none
        | some c1 =>
          if c1 = nul then some (i, 1)
          else if c1 = '.' ∧ p + 1 = e then some (i, 2)
          else if c1 = '.' then
            match rdGet path ((p : Int) + 2) with
            | none => none
            | some c2 =>
              if c2 = nul then some (i, 2)
              else if i + 1 ≥ ns then some (i + 1, 0)
              else rdInner path segs e ns fuel (i + 1)
          else if i + 1 ≥ ns then some (i + 1, 0)
          else rdInner path segs e ns fuel (i + 1)
      else if i + 1 ≥ ns then some (i + 1, 0)
      else rdInner path segs e ns fuel (i + 1)

/-- Outer loop of `remove_dots` (`normalizer.rs:270`). For `dots = 2` at
`i = 0` the Rust range `0..=i-1` underflows (`usize`), which reads
`segs[usize::MAX]` and panics: `none`. The ancestor check reads
`path[q]`, `path[q+1]`, `path[q+2]` with the same panic semantics. -/
def rdOuter (path : Array Char) (e : Nat) : Nat → Array Int → Nat → Option (Array Int)
  | 0, segs, _ => some segs
  | fuel + 1, segs, r =>
    if r < segs.size then
      match rdInner path segs e segs.size (segs.size + 1) r with
      | none => none
      | some (i, dots) =>
        if dots = 0 then some segs
        else if dots = 1 then
          if i < segs.size then rdOuter path e fuel (segs.setD i (-1)) (r + 1) else none
        else
          if i = 0 then none
          else
            let j := rdJ segs (i - 1) 0
            let q := segs.getD j 0
            match rdGet path q with
            | none => none
            | some cq =>
              if cq ≠ '.' then
                rdOuter path e fuel ((segs.setD i (-1)).setD j (-1)) (r + 1)
              else
                match rdGet path (q + 1) with
                | none => none
                | some cq1 =>
                  if cq1 ≠ '.' then
                    rdOuter path e fuel ((segs.setD i (-1)).setD j (-1)) (r + 1)
                  else
                    match rdGet path (q + 2) with
                    | none => none
                    | some cq2 =>
                      if cq2 = nul then rdOuter path e fuel segs (r + 1)
                      else rdOuter path e fuel ((segs.setD i (-1)).setD j (-1)) (r + 1)
    else some segs

/-- `UrlNormalizer::remove_dots` (`normalizer.rs:267`). -/
def remove_dots (path : Array Char) (segs : Array Int) : Option (Array Int) :=
  rdOuter path (path.size - 1) (segs.size + 1) segs 0

/-- First-kept-segment scan of `maybe_add_leading_dot` (`normalizer.rs:325`). -/
def maldF (segs : Array Int) : Nat → Nat → Nat
  | 0, f => f
  | fuel + 1, f =>
    if f < segs.size then
      if segs.getD f 0 < 0 then maldF segs fuel (f + 1) else f
    else f

/-- Colon scan of `maybe_add_leading_dot` (`normalizer.rs:335`). -/
def maldScan (path : Array Char) : Nat → Nat → Nat
  | 0, p => p
  | fuel + 1, p =>
    if p < path.size then
      if path.getD p nul ≠ ':' ∧ path.getD p nul ≠ nul then maldScan path fuel (p + 1)
      else p
    else p

/-- `UrlNormalizer::maybe_add_leading_dot` (`normalizer.rs:318`). The write
to `path[1]` would panic on a one-character buffer (`none`), though the
guards make that unreachable. -/
def maybe_add_leading_dot (path : Array Char) (segs : Array Int) :
    Option (Array Char × Array Int) :=
  if path.getD 0 nul = nul then some (path, segs)
  else
    let ns := segs.size
    let f := maldF segs (ns + 1) 0
    if f ≥ ns ∨ f = 0 then some (path, segs)
    else
      let p := maldScan path (path.size + 1) (segs.getD f 0).toNat
      if p ≥ path.size ∨ path.getD p nul = nul then some (path, segs)
      else
        if 1 < path.size then
          some ((path.setD 0 '.').setD 1 nul, segs.setD 0 0)
        else none

/-- In-place advance over a segment in `join` (`normalizer.rs:367`). -/
def jnAdv (path : Array Char) (e : Nat) : Nat → Nat → Nat
  | 0, p => p
  | fuel + 1, p =>
    if p ≤ e ∧ path.getD p nul ≠ nul then jnAdv path e fuel (p + 1) else p

/-- Copy loop of `join` (`normalizer.rs:375`): copies the segment at `q`
down to position `p`. -/
def jnCopy (e : Nat) : Nat → Array Char → Nat → Nat → Array Char × Nat × Nat
  | 0, path, p, q => (path, p, q)
  | fuel + 1, path, p, q =>
    if q ≤ e ∧ path.getD q nul ≠ nul then
      jnCopy e fuel (path.setD p (path.getD q nul)) (p + 1) (q + 1)
    else (path, p, q)

/-- Segment loop of `join` (`normalizer.rs:361`). -/
def jnMain (e : Nat) : Nat → Array Char → Array Int → Nat → Nat →
    Option (Except NormalizeError (Array Char × Nat))
  | 0, path, _, p, _ => some (Except.ok (path, p))
  | fuel + 1, path, segs, p, i =>
    if i < segs.size then
      let q := segs.getD i 0
      if q = -1 then jnMain e fuel path segs p (i + 1)
      else if (p : Int) = q then
        let p2 := jnAdv path e (e + 2) p
        if p2 ≤ e then jnMain e fuel (path.setD p2 '/') segs (p2 + 1) (i + 1)
        else jnMain e fuel path segs p2 (i + 1)
      else if (p : Int) < q then
        let t := jnCopy e (e + 2) path p q.toNat
        if t.2.2 ≤ e then jnMain e fuel (t.1.setD t.2.1 '/') segs (t.2.1 + 1) (i + 1)
        else jnMain e fuel t.1 segs t.2.1 (i + 1)
      else some (Except.error NormalizeError.InternalError)
    else some (Except.ok (path, p))

/-- `UrlNormalizer::join` (`normalizer.rs:346`): returns the final write
position `p`; the result path is the first `p` characters of the buffer.
Reads `path[0]` unconditionally, so an empty buffer panics. -/
def join (path0 : Array Char) (segs : Array Int) :
    Option (Except NormalizeError (Array Char × Nat)) :=
  if path0.size = 0 then none
  else
    let e := path0.size - 1
    let c0 := path0.getD 0 nul
    let start := if c0 = nul then ((path0.setD 0 '/'), 1) else (path0, 0)
    jnMain e (segs.size + 1) start.1 segs start.2 0

/-- `UrlNormalizer::normalize_path` (`normalizer.rs:157`). The two
`println!` trace lines of the source are side effects with no bearing on the
result and are not modelled. An empty path panics inside
`needs_normalization` (`path.len() - 1` underflow). -/
def normalize_path (url_path : String) : Option (Except NormalizeError String) :=
  let path := url_path.toList.toArray
  if path.size = 0 then none
  else
    let ns := needs_normalization path
    if ns < 0 then some (Except.ok url_path)
    else
      match split path ns.toNat with
      | none => none
      | some (Except.error e) => some (Except.error e)
      | some (Except.ok (path1, segs)) =>
        match remove_dots path1 segs with
        | none => none
        | some segs1 =>
          match maybe_add_leading_dot path1 segs1 with
          | none => none
          | some (path2, segs2) =>
            match join path2 segs2 with
            | none => none
            | some (Except.error e) => some (Except.error e)
            | some (Except.ok (path3, p)) =>
              some (Except.ok (String.mk (path3.toList.take p)))

/-! ## The orchestrator (`UrlNormalizer`) -/

/-- Rust `str::replace("/$", "")`: remove every (left-to-right,
non-overlapping) occurrence of the two-character substring `/$`. -/
def replaceSlashDollar : List Char → List Char
  | [] => []
  | [c] => [c]
  | c :: d :: rest =>
    if c = '/' ∧ d = '$' then replaceSlashDollar rest
    else c :: replaceSlashDollar (d :: rest)

/-- Does the list contain the substring `/$`? -/
def hasSlashDollar : List Char → Bool
  | [] => false
  | [_] => false
  | c :: d :: rest => (c = '/' && d = '$') || hasSlashDollar (d :: rest)

/-- The method is_opaque of UrlNormalizer (`normalizer.rs:173`). -/
def is_opaque (u : ParsedUrl) : Bool :=
  u.path = ""

/-- `UrlNormalizer::normalize_url` (`normalizer.rs:143`). `Url::set_path` is
modelled as a plain field update (the paths it receives here contain only
characters the `url` crate stores verbatim). -/
def normalize_url (u : ParsedUrl) : Option (Except NormalizeError ParsedUrl) :=
  if is_opaque u then some (Except.ok u)
  else
    match normalize_path u.path with
    | none => none
    | some (Except.error e) => some (Except.error e)
    | some (Except.ok np0) =>
      let np := String.mk (replaceSlashDollar np0.toList)
      if np = u.path then some (Except.ok u)
      else some (Except.ok { u with path := np })

/-- `UrlNormalizer::normalize` (`normalizer.rs:44`). The `String::from_utf8`
step cannot fail (the encoder emits ASCII), so `UrlEncodeError` is
unreachable and the byte detour is collapsed into string concatenation. -/
def normalize {R : Type} (E : RegexEngine R) (u : ParsedUrl)
    (remove_param_regex : Option (List String)) : Option (Except NormalizeError String) :=
  match normalize_url u with
  | none => none
  | some (Except.error e) => some (Except.error e)
  | some (Except.ok url) =>
    let urls := splitOnChar '/' url.path.toList
    let normalized_path := String.mk
      (joinWithChar '/' (urls.map (fun seg => (Urlencoding.encode (String.mk seg)).toList)))
    match create_parameter_map E url.query remove_param_regex with
    | Except.error e => some (Except.error e)
    | Except.ok params => some (Except.ok (to_normalized_url url params normalized_path))

/-- Scheme characters accepted by the modelled parser:
`[a-zA-Z][a-zA-Z0-9+.-]*`, as the `url` crate requires. -/
def validSchemeChars (cs : List Char) : Bool :=
  cs.all (fun c =>
    (97 ≤ c.toNat && c.toNat ≤ 122) || (65 ≤ c.toNat && c.toNat ≤ 90) ||
      (48 ≤ c.toNat && c.toNat ≤ 57) || c == '+' || c == '-' || c == '.')

/-- Modelled from the spec: splitting the authority into host and optional
decimal port (`< 65536`, an empty port after `:` meaning none, a malformed
port failing the parse). -/
def parseAuthority (auth : List Char) : Option (List Char × Option Nat) :=
  match splitFirst ':' auth with
  | none => some (auth, none)
  | some (h, pcs) =>
    if pcs = [] then some (h, none)
    else if pcs.all (fun c => 48 ≤ c.toNat && c.toNat ≤ 57) then
      if natFromDigits pcs < 65536 then some (h, some (natFromDigits pcs)) else none
    else none

/-- Modelled from the spec: the external URL-parsing component, which splits
a raw string into scheme, authority (host, optional port), path and query.
Only hierarchical `scheme://[host[:port]][path][?query]` forms are modelled
(every URL string appearing in a theorem below is of that form); fragments,
user-info and scheme/host case-folding are not modelled and all such inputs
here are already lower-case. -/
def parseUrl (s : String) : Option ParsedUrl :=
  match splitFirst ':' s.toList with
  | none => none
  | some (schemeCs, rest) =>
    match schemeCs.head? with
    | none => none
    | some c0 =>
      if ((97 ≤ c0.toNat ∧ c0.toNat ≤ 122) ∨ (65 ≤ c0.toNat ∧ c0.toNat ≤ 90)) ∧
          validSchemeChars schemeCs = true then
        match rest with
        | r1 :: r2 :: rest2 =>
          if r1 = '/' ∧ r2 = '/' then
            let auth := rest2.takeWhile (fun c => ¬ (c = '/' ∨ c = '?'))
            let after := rest2.dropWhile (fun c => ¬ (c = '/' ∨ c = '?'))
            match parseAuthority auth with
            | none => none
            | some (h, port) =>
              match splitFirst '?' after with
              | none =>
                some { scheme := String.mk schemeCs, host := some (String.mk h),
                       port := port, path := String.mk after, query := none }
              | some (pa, q) =>
                some { scheme := String.mk schemeCs, host := some (String.mk h),
                       port := port, path := String.mk pa, query := some (String.mk q) }
          else none
        | _ => none
      else none

/-- `UrlNormalizer::new` (`normalizer.rs:36`): trim, then parse. -/
def new (tainted_url : String) : Except NormalizeError ParsedUrl :=
  match parseUrl (String.mk (trimModel tainted_url.toList)) with
  | none => Except.error NormalizeError.UrlParseError
  | some u => Except.ok u

/-- End-to-end run on a raw URL string: `UrlNormalizer::new` followed by
`normalize`. -/
def normalizeStr {R : Type} (E : RegexEngine R) (s : String)
    (ps : Option (List String)) : Option (Except NormalizeError String) :=
  match new s with
  | Except.error e => some (Except.error e)
  | Except.ok u => normalize E u ps

/-! ## Character classes used in the restricted statements -/

/-- A lower-case ASCII letter. -/
def isLowerAlpha (c : Char) : Bool :=
  97 ≤ c.toNat && c.toNat ≤ 122

/-- A character kept verbatim by the percent codec (RFC 3986 unreserved). -/
def isUnresChar (c : Char) : Bool :=
  Urlencoding.isUnreservedByte c.toNat

/-- Characters allowed in the restricted host class: lower-case letters,
digits, `-`, `.`, `_`, `~`. -/
def isHostChar (c : Char) : Bool :=
  isLowerAlpha c || (48 ≤ c.toNat && c.toNat ≤ 57) || c == '-' || c == '.' || c == '_' || c == '~'

/-- Characters allowed in the restricted query class: unreserved, `=`, `&`. -/
def isQueryChar (c : Char) : Bool :=
  isUnresChar c || c == '=' || c == '&'

/-- Characters allowed in the restricted path class: unreserved or `/`. -/
def isPathChar (c : Char) : Bool :=
  isUnresChar c || c == '/'

/-! ## Helper lemmas: characters -/

theorem char_eq_of_toNat_eq {c d : Char} (h : c.toNat = d.toNat) : c = d := by
  rw [← Char.ofNat_toNat c, ← Char.ofNat_toNat d, h]

theorem unres_toNat_facts {c : Char} (h : isUnresChar c = true) :
    c.toNat < 128 ∧ c.toNat ≠ 37 ∧ c.toNat ≠ 38 ∧ c.toNat ≠ 61 ∧ c.toNat ≠ 47 ∧
      c.toNat ≠ 63 ∧ c.toNat ≠ 58 ∧ c.toNat ≠ 36 ∧ c.toNat ≠ 0 ∧ c.toNat ≠ 32 ∧
      c.toNat ≠ 9 ∧ c.toNat ≠ 13 ∧ c.toNat ≠ 10 := by
  simp only [isUnresChar, Urlencoding.isUnreservedByte, Bool.or_eq_true, Bool.and_eq_true,
    decide_eq_true_eq, beq_iff_eq] at h
  omega

theorem unres_ne {c : Char} (h : isUnresChar c = true) (d : Char)
    (hd : isUnresChar d = false) : c ≠ d := by
  intro hcd
  rw [hcd] at h
  rw [h] at hd
  exact Bool.noConfusion hd

/-! ## Helper lemmas: the `listLt` order -/

theorem listLt_cons_iff {a b : Char} {as bs : List Char} :
    listLt (a :: as) (b :: bs) = true ↔
      a.toNat < b.toNat ∨ (a.toNat = b.toNat ∧ listLt as bs = true) := by
  simp only [listLt]
  split_ifs with h1 h2 <;> simp_all

theorem listLt_irrefl : ∀ l : List Char, listLt l l = false
  | [] => rfl
  | a :: as => by
    show (if a.toNat < a.toNat then true else
      if a.toNat = a.toNat then listLt as as else false) = false
    rw [if_neg (Nat.lt_irrefl _), if_pos rfl]
    exact listLt_irrefl as

theorem bool_eq_false {b : Bool} (h : ¬ b = true) : b = false := by
  cases b
  · rfl
  · exact absurd rfl h

theorem listLt_trans : ∀ (a b c : List Char),
    listLt a b = true → listLt b c = true → listLt a c = true
  | [], [], _, h, _ => Bool.noConfusion h
  | [], _ :: _, [], _, h2 => Bool.noConfusion h2
  | [], _ :: _, _ :: _, _, _ => rfl
  | _ :: _, [], _, h, _ => Bool.noConfusion h
  | _ :: _, _ :: _, [], _, h2 => Bool.noConfusion h2
  | a :: as, b :: bs, c :: cs, h1, h2 => by
    rw [listLt_cons_iff] at h1 h2 ⊢
    rcases h1 with h1 | ⟨h1e, h1r⟩
    · rcases h2 with h2 | ⟨h2e, _⟩
      · exact Or.inl (Nat.lt_trans h1 h2)
      · exact Or.inl (h2e ▸ h1)
    · rcases h2 with h2 | ⟨h2e, h2r⟩
      · exact Or.inl (h1e ▸ h2)
      · exact Or.inr ⟨h1e.trans h2e, listLt_trans as bs cs h1r h2r⟩

theorem listLt_asymm_eq : ∀ (a b : List Char),
    listLt a b = false → listLt b a = false → a = b
  | [], [], _, _ => rfl
  | [], _ :: _, h, _ => Bool.noConfusion h
  | _ :: _, [], _, h2 => Bool.noConfusion h2
  | a :: as, b :: bs, h1, h2 => by
    have ni1 : ¬ (a.toNat < b.toNat ∨ (a.toNat = b.toNat ∧ listLt as bs = true)) := by
      intro hx
      rw [← listLt_cons_iff] at hx
      rw [h1] at hx
      exact Bool.noConfusion hx
    have ni2 : ¬ (b.toNat < a.toNat ∨ (b.toNat = a.toNat ∧ listLt bs as = true)) := by
      intro hx
      rw [← listLt_cons_iff] at hx
      rw [h2] at hx
      exact Bool.noConfusion hx
    have na : ¬ a.toNat < b.toNat := fun hx => ni1 (Or.inl hx)
    have nb : ¬ b.toNat < a.toNat := fun hx => ni2 (Or.inl hx)
    have hab : a.toNat = b.toNat := by omega
    have h1r : listLt as bs = false := by
      cases hx : listLt as bs
      · rfl
      · exact absurd (Or.inr ⟨hab, hx⟩) ni1
    have h2r : listLt bs as = false := by
      cases hx : listLt bs as
      · rfl
      · exact absurd (Or.inr ⟨hab.symm, hx⟩) ni2
    rw [char_eq_of_toNat_eq hab, listLt_asymm_eq as bs h1r h2r]

theorem strLt_trans {a b c : String} (h1 : strLt a b = true) (h2 : strLt b c = true) :
    strLt a c = true :=
  listLt_trans a.toList b.toList c.toList h1 h2

theorem strLt_irrefl (a : String) : strLt a a = false :=
  listLt_irrefl a.toList

theorem str_eq_of_toList_eq {a b : String} (h : a.toList = b.toList) : a = b := by
  cases a
  cases b
  exact congrArg String.mk h

theorem strLt_asymm_eq {a b : String} (h1 : strLt a b = false) (h2 : strLt b a = false) :
    a = b :=
  str_eq_of_toList_eq (listLt_asymm_eq a.toList b.toList h1 h2)

theorem strLt_false_of_true {a b : String} (h : strLt a b = true) : strLt b a = false := by
  cases hx : strLt b a
  · rfl
  · have := strLt_trans h hx
    rw [strLt_irrefl] at this
    exact this.symm

/-! ## Helper lemmas: the sorted-association-list map -/

/-- Keys strictly ascending: the `BTreeMap` well-formedness invariant. -/
def SortedKeys (l : List (String × String)) : Prop :=
  l.Pairwise (fun a b => strLt a.1 b.1 = true)

theorem mem_insertSorted (k v : String) :
    ∀ (l : List (String × String)) (kv : String × String),
      kv ∈ insertSorted k v l → kv = (k, v) ∨ kv ∈ l
  | [], kv, h => by simpa [insertSorted] using h
  | (k1, v1) :: rest, kv, h => by
    simp only [insertSorted] at h
    split_ifs at h with h1 h2
    · rcases List.mem_cons.mp h with h | h
      · exact Or.inl h
      · exact Or.inr h
    · rcases List.mem_cons.mp h with h | h
      · exact Or.inl h
      · exact Or.inr (List.mem_cons_of_mem _ h)
    · rcases List.mem_cons.mp h with h | h
      · exact Or.inr (h ▸ List.mem_cons_self _ _)
      · rcases mem_insertSorted k v rest kv h with h | h
        · exact Or.inl h
        · exact Or.inr (List.mem_cons_of_mem _ h)

theorem key_mem_insertSorted_self (k v : String) :
    ∀ l : List (String × String), k ∈ (insertSorted k v l).map Prod.fst
  | [] => by simp [insertSorted]
  | (k1, v1) :: rest => by
    simp only [insertSorted]
    split_ifs with h1 h2
    · simp
    · simp
    · simpa using Or.inr (by simpa using key_mem_insertSorted_self k v rest)

theorem key_mem_insertSorted_of (k v k2 : String) :
    ∀ l : List (String × String), k2 ∈ l.map Prod.fst →
      k2 ∈ (insertSorted k v l).map Prod.fst
  | [], h => by simp at h
  | (k1, v1) :: rest, h => by
    simp only [insertSorted]
    rcases (by simpa using h : k2 = k1 ∨ k2 ∈ rest.map Prod.fst) with h | h
    · split_ifs with h1 h2
      · simp [h]
      · subst h2; simp [h]
      · simp [h]
    · split_ifs with h1 h2
      · simpa using Or.inr (Or.inr (by simpa using h))
      · simpa using Or.inr (by simpa using h)
      · simpa using Or.inr (by simpa using key_mem_insertSorted_of k v k2 rest h)

theorem insertSorted_sorted (k v : String) :
    ∀ l : List (String × String), SortedKeys l → SortedKeys (insertSorted k v l)
  | [], _ => by simp [insertSorted, SortedKeys]
  | (k1, v1) :: rest, h => by
    rcases (List.pairwise_cons.mp h) with ⟨h1all, hrest⟩
    simp only [insertSorted]
    split_ifs with hlt heq
    · exact List.Pairwise.cons
        (by
          intro kv hkv
          rcases (by simpa using hkv : kv = (k1, v1) ∨ kv ∈ rest) with h | h
          · simpa [h] using hlt
          · exact strLt_trans hlt (h1all kv h))
        h
    · exact List.Pairwise.cons (fun kv hkv => heq ▸ h1all kv hkv) hrest
    · have hk1k : strLt k1 k = true := by
        cases hx : strLt k1 k
        · exact absurd (strLt_asymm_eq (bool_eq_false hlt) hx) heq
        · rfl
      exact List.Pairwise.cons
        (by
          intro kv hkv
          rcases mem_insertSorted k v rest kv hkv with h | h
          · simpa [h] using hk1k
          · exact h1all kv h)
        (insertSorted_sorted k v rest hrest)

theorem lookupKey_insertSorted_self (k v : String) :
    ∀ l : List (String × String), lookupKey k (insertSorted k v l) = some v
  | [] => by simp [insertSorted, lookupKey]
  | (k1, v1) :: rest => by
    simp only [insertSorted]
    split_ifs with h1 h2
    · simp [lookupKey]
    · simp [lookupKey]
    · simp only [lookupKey]
      rw [if_neg (fun h => h2 h.symm)]
      exact lookupKey_insertSorted_self k v rest

/-! ## Helper lemmas: the percent codec on plain ASCII -/

theorem toNat_ofNat_valid (n : Nat) (h : n.isValidChar) : (Char.ofNat n).toNat = n := by
  simp [Char.ofNat, h, Char.ofNatAux, Char.toNat, UInt32.toNat, BitVec.toNat_ofNatLt]

theorem toNat_ofNat_small {n : Nat} (h : n < 55296) : (Char.ofNat n).toNat = n :=
  toNat_ofNat_valid n (Or.inl h)

theorem utf8Bytes_ascii {c : Char} (h : c.toNat < 128) :
    Urlencoding.utf8Bytes c = [c.toNat] := by
  simp [Urlencoding.utf8Bytes, h]

theorem strBytes_ascii : ∀ cs : List Char, (∀ c ∈ cs, c.toNat < 128) →
    Urlencoding.strBytes cs = cs.map Char.toNat
  | [], _ => rfl
  | c :: rest, h => by
    have ih := strBytes_ascii rest (fun x hx => h x (List.mem_cons_of_mem _ hx))
    simp only [Urlencoding.strBytes, List.map_cons, List.flatten_cons] at ih ⊢
    rw [utf8Bytes_ascii (h c (List.mem_cons_self _ _)), ih]
    rfl

theorem percentDecode_id : ∀ bs : List Nat, (∀ b ∈ bs, b ≠ 37) →
    Urlencoding.percentDecode bs = bs
  | [], _ => rfl
  | [b], _ => rfl
  | [b, b1], _ => rfl
  | b :: h1 :: h2 :: rest, h => by
    have hb : b ≠ 37 := h b (List.mem_cons_self _ _)
    have heq : Urlencoding.percentDecode (b :: h1 :: h2 :: rest) =
        if b = 37 then
          (match Urlencoding.hexVal h1, Urlencoding.hexVal h2 with
           | some a, some v => (16 * a + v) :: Urlencoding.percentDecode rest
           | _, _ => 37 :: Urlencoding.percentDecode (h1 :: h2 :: rest))
        else b :: Urlencoding.percentDecode (h1 :: h2 :: rest) := rfl
    rw [heq, if_neg hb,
      percentDecode_id (h1 :: h2 :: rest) (fun x hx => h x (List.mem_cons_of_mem _ hx))]

theorem utf8DecodeF_ascii : ∀ (fuel : Nat) (cs : List Char), cs.length ≤ fuel →
    (∀ c ∈ cs, c.toNat < 128) → Urlencoding.utf8DecodeF fuel (cs.map Char.toNat) = some cs
  | fuel, [], _, _ => by cases fuel <;> rfl
  | 0, c :: rest, hf, _ => by simp at hf
  | fuel + 1, c :: rest, hf, h => by
    have hc : c.toNat < 128 := h c (List.mem_cons_self _ _)
    have ih := utf8DecodeF_ascii fuel rest (by simp at hf; omega)
      (fun x hx => h x (List.mem_cons_of_mem _ hx))
    have hstep : Urlencoding.utf8Step c.toNat (rest.map Char.toNat) =
        some (c.toNat, rest.map Char.toNat) := by
      unfold Urlencoding.utf8Step
      rw [if_pos hc]
    rw [List.map_cons]
    simp only [Urlencoding.utf8DecodeF, hstep, ih, Option.map_some', Char.ofNat_toNat]

theorem utf8Decode_ascii (cs : List Char) (h : ∀ c ∈ cs, c.toNat < 128) :
    Urlencoding.utf8Decode (cs.map Char.toNat) = some cs := by
  unfold Urlencoding.utf8Decode
  rw [List.length_map]
  exact utf8DecodeF_ascii cs.length cs (Nat.le_refl _) h

theorem decode_id (cs : List Char) (h : ∀ c ∈ cs, c.toNat < 128 ∧ c.toNat ≠ 37) :
    Urlencoding.decode cs = some cs := by
  unfold Urlencoding.decode
  rw [strBytes_ascii cs (fun c hc => (h c hc).1)]
  rw [percentDecode_id _ (by
    intro b hb
    rcases List.mem_map.mp hb with ⟨c, hc, rfl⟩
    exact (h c hc).2)]
  exact utf8Decode_ascii cs (fun c hc => (h c hc).1)

theorem decode_id_unres (cs : List Char) (h : ∀ c ∈ cs, isUnresChar c = true ∨ c = '=') :
    Urlencoding.decode cs = some cs := by
  refine decode_id cs (fun c hc => ?_)
  rcases h c hc with h1 | h1
  · have := unres_toNat_facts h1
    exact ⟨this.1, this.2.1⟩
  · subst h1
    refine ⟨by decide, by decide⟩

theorem encodeBytes_unres : ∀ cs : List Char, (∀ c ∈ cs, isUnresChar c = true) →
    ((cs.map Char.toNat).map Urlencoding.encodeByte).flatten = cs
  | [], _ => rfl
  | c :: rest, h => by
    have hc : Urlencoding.isUnreservedByte c.toNat = true := h c (List.mem_cons_self _ _)
    simp only [List.map_cons, List.flatten_cons]
    rw [show Urlencoding.encodeByte c.toNat = [Char.ofNat c.toNat] by
      simp [Urlencoding.encodeByte, hc]]
    rw [Char.ofNat_toNat,
      encodeBytes_unres rest (fun x hx => h x (List.mem_cons_of_mem _ hx))]
    rfl

theorem encode_id (cs : List Char) (h : ∀ c ∈ cs, isUnresChar c = true) :
    Urlencoding.encode (String.mk cs) = String.mk cs := by
  unfold Urlencoding.encode
  rw [show (String.mk cs).toList = cs from rfl]
  rw [strBytes_ascii cs (fun c hc => (unres_toNat_facts (h c hc)).1)]
  rw [encodeBytes_unres cs h]

/-! ## Helper lemmas: splitting and joining -/

theorem splitFirst_not_mem {sep : Char} : ∀ cs : List Char, sep ∉ cs →
    splitFirst sep cs = none
  | [], _ => rfl
  | c :: rest, h => by
    have hc : c ≠ sep := fun he => h (he ▸ List.mem_cons_self _ _)
    simp only [splitFirst, if_neg hc,
      splitFirst_not_mem rest (fun hm => h (List.mem_cons_of_mem _ hm))]

theorem splitFirst_append {sep : Char} : ∀ (xs ys : List Char), sep ∉ xs →
    splitFirst sep (xs ++ sep :: ys) = some (xs, ys)
  | [], ys, _ => by simp [splitFirst]
  | x :: xs, ys, h => by
    have hx : x ≠ sep := fun he => h (he ▸ List.mem_cons_self _ _)
    simp only [List.cons_append, splitFirst, if_neg hx, List.append_eq,
      splitFirst_append xs ys (fun hm => h (List.mem_cons_of_mem _ hm))]

theorem splitFirst_some {sep : Char} : ∀ (cs a b : List Char),
    splitFirst sep cs = some (a, b) → cs = a ++ sep :: b ∧ sep ∉ a
  | [], a, b, h => by simp [splitFirst] at h
  | c :: rest, a, b, h => by
    simp only [splitFirst] at h
    split_ifs at h with hc
    · subst hc
      obtain ⟨rfl, rfl⟩ : a = [] ∧ b = rest := by
        constructor <;> · injection h with h2; injection h2 with h3 h4; simp_all
      simp
    · match hsf : splitFirst sep rest with
      | none => rw [hsf] at h; exact absurd h (by simp)
      | some (a2, b2) =>
        rw [hsf] at h
        obtain ⟨ha, hb⟩ : c :: a2 = a ∧ b2 = b := by
          injection h with h2; injection h2 with h3 h4; exact ⟨h3, h4⟩
        obtain ⟨hrec, hmem⟩ := splitFirst_some rest a2 b2 hsf
        subst ha
        subst hb
        refine ⟨by rw [hrec]; rfl, ?_⟩
        intro hm
        rcases List.mem_cons.mp hm with hm | hm
        · exact hc hm.symm
        · exact hmem hm

theorem splitOnChar_ne_nil {sep : Char} : ∀ cs : List Char, splitOnChar sep cs ≠ []
  | [] => by simp [splitOnChar]
  | c :: rest => by
    simp only [splitOnChar]
    split_ifs with h
    · simp
    · match hr : splitOnChar sep rest with
      | [] => simp
      | g :: gs => simp

theorem joinWithChar_splitOnChar {sep : Char} : ∀ cs : List Char,
    joinWithChar sep (splitOnChar sep cs) = cs
  | [] => rfl
  | c :: rest => by
    have ih : joinWithChar sep (splitOnChar sep rest) = rest :=
      joinWithChar_splitOnChar rest
    simp only [splitOnChar]
    split_ifs with h
    · subst h
      match hr : splitOnChar c rest with
      | [] => exact absurd hr (splitOnChar_ne_nil rest)
      | g :: gs =>
        rw [hr] at ih
        show joinWithChar c ([] :: g :: gs) = c :: rest
        show [] ++ c :: joinWithChar c (g :: gs) = c :: rest
        rw [List.nil_append, ih]
    · match hr : splitOnChar sep rest with
      | [] => exact absurd hr (splitOnChar_ne_nil rest)
      | [g] =>
        rw [hr] at ih
        show joinWithChar sep [c :: g] = c :: rest
        show c :: g = c :: rest
        rw [show joinWithChar sep [g] = g from rfl] at ih
        rw [ih]
      | g :: g2 :: gs =>
        rw [hr] at ih
        show (c :: g) ++ sep :: joinWithChar sep (g2 :: gs) = c :: rest
        show c :: (g ++ sep :: joinWithChar sep (g2 :: gs)) = c :: rest
        rw [show joinWithChar sep (g :: g2 :: gs) = g ++ sep :: joinWithChar sep (g2 :: gs)
      from rfl] at ih
        rw [ih]

theorem splitOnChar_no_sep {sep : Char} : ∀ g : List Char, sep ∉ g →
    splitOnChar sep g = [g]
  | [], _ => rfl
  | c :: rest, h => by
    have hc : c ≠ sep := fun he => h (he ▸ List.mem_cons_self _ _)
    have ih := splitOnChar_no_sep rest (fun hm => h (List.mem_cons_of_mem _ hm))
    simp only [splitOnChar, if_neg hc, ih]

theorem splitOnChar_append_sep {sep : Char} : ∀ (g tail : List Char), sep ∉ g →
    splitOnChar sep (g ++ sep :: tail) = g :: splitOnChar sep tail
  | [], tail, _ => by
    simp [splitOnChar]
  | c :: g, tail, h => by
    have hc : c ≠ sep := fun he => h (he ▸ List.mem_cons_self _ _)
    have ih := splitOnChar_append_sep g tail (fun hm => h (List.mem_cons_of_mem _ hm))
    simp only [List.cons_append, splitOnChar, if_neg hc, List.append_eq, ih]

theorem splitOnChar_join {sep : Char} : ∀ gs : List (List Char), gs ≠ [] →
    (∀ g ∈ gs, sep ∉ g) → splitOnChar sep (joinWithChar sep gs) = gs
  | [], h, _ => absurd rfl h
  | [g], _, h2 => by
    show splitOnChar sep g = [g]
    exact splitOnChar_no_sep g (h2 g (List.mem_cons_self _ _))
  | g :: g2 :: gs, _, h2 => by
    show splitOnChar sep (g ++ sep :: joinWithChar sep (g2 :: gs)) = g :: g2 :: gs
    rw [splitOnChar_append_sep g _ (h2 g (List.mem_cons_self _ _))]
    rw [splitOnChar_join (g2 :: gs) (by simp) (fun x hx => h2 x (List.mem_cons_of_mem _ hx))]

theorem splitOnChar_mem {sep : Char} : ∀ (cs g : List Char), g ∈ splitOnChar sep cs →
    ∀ c ∈ g, c ∈ cs ∧ c ≠ sep
  | [], g, hg, c, hc => by
    simp [splitOnChar] at hg
    subst hg
    simp at hc
  | x :: rest, g, hg, c, hc => by
    simp only [splitOnChar] at hg
    split_ifs at hg with h
    · rcases List.mem_cons.mp hg with hg | hg
      · subst hg; simp at hc
      · have := splitOnChar_mem rest g hg c hc
        exact ⟨List.mem_cons_of_mem _ this.1, this.2⟩
    · match hr : splitOnChar sep rest with
      | [] => exact absurd hr (splitOnChar_ne_nil rest)
      | g1 :: gs =>
        rw [hr] at hg
        rcases List.mem_cons.mp hg with hg | hg
        · subst hg
          rcases List.mem_cons.mp hc with hc | hc
          · subst hc
            exact ⟨List.mem_cons_self _ _, h⟩
          · have := splitOnChar_mem rest g1 (by rw [hr]; exact List.mem_cons_self _ _) c hc
            exact ⟨List.mem_cons_of_mem _ this.1, this.2⟩
        · have := splitOnChar_mem rest g (by rw [hr]; exact List.mem_cons_of_mem _ hg) c hc
          exact ⟨List.mem_cons_of_mem _ this.1, this.2⟩

/-! ## Helper lemmas: decimal digits -/

theorem natDigits_are_digits (n : Nat) : ∀ c ∈ natDigits n, 48 ≤ c.toNat ∧ c.toNat ≤ 57 := by
  induction n using Nat.strong_induction_on with
  | _ n ih =>
    intro c hc
    rw [natDigits] at hc
    split_ifs at hc with h
    · rcases List.mem_singleton.mp hc with rfl
      rw [toNat_ofNat_small (by omega)]
      omega
    · rcases List.mem_append.mp hc with hc | hc
      · exact ih (n / 10) (Nat.div_lt_self (by omega) (by omega)) c hc
      · rcases List.mem_singleton.mp hc with rfl
        rw [toNat_ofNat_small (by omega)]
        omega

theorem natFromDigits_natDigits (n : Nat) : natFromDigits (natDigits n) = n := by
  induction n using Nat.strong_induction_on with
  | _ n ih =>
    rw [natDigits]
    split_ifs with h
    · simp only [natFromDigits, List.foldl_cons, List.foldl_nil]
      rw [toNat_ofNat_small (by omega)]
      omega
    · simp only [natFromDigits, List.foldl_append, List.foldl_cons, List.foldl_nil]
      have := ih (n / 10) (Nat.div_lt_self (by omega) (by omega))
      simp only [natFromDigits] at this
      rw [this, toNat_ofNat_small (by omega)]
      omega

theorem natDigits_ne_nil (n : Nat) : natDigits n ≠ [] := by
  rw [natDigits]
  split_ifs <;> simp

/-! ## Helper lemmas: trimming and dropWhile -/

theorem dropWhile_all_false {α : Type} (p : α → Bool) :
    ∀ l : List α, (∀ x ∈ l, p x = false) → l.dropWhile p = l
  | [], _ => rfl
  | x :: rest, h => by
    simp only [List.dropWhile, h x (List.mem_cons_self _ _)]

theorem trimModel_id (cs : List Char) (h : ∀ c ∈ cs, c.isWhitespace = false) :
    trimModel cs = cs := by
  unfold trimModel
  rw [dropWhile_all_false _ cs h]
  rw [dropWhile_all_false _ cs.reverse (fun x hx => h x (List.mem_reverse.mp hx))]
  exact List.reverse_reverse cs

theorem insertSorted_append_of_lt (k v : String) :
    ∀ l : List (String × String), (∀ kv ∈ l, strLt kv.1 k = true) →
      insertSorted k v l = l ++ [(k, v)]
  | [], _ => rfl
  | (k1, v1) :: rest, h => by
    have hk1 : strLt k1 k = true := h (k1, v1) (List.mem_cons_self _ _)
    have hlt : strLt k k1 = false := strLt_false_of_true hk1
    have hne : k ≠ k1 := by
      intro he
      rw [he] at hk1
      rw [strLt_irrefl] at hk1
      exact Bool.false_ne_true hk1
    simp only [insertSorted, hlt, if_false, if_neg hne]
    rw [insertSorted_append_of_lt k v rest (fun kv hkv => h kv (List.mem_cons_of_mem _ hkv))]
    simp

theorem mk_toList (s : String) : String.mk s.toList = s := by
  cases s
  rfl

theorem unres_not_mem {l : List Char} (h : ∀ c ∈ l, isUnresChar c = true)
    (d : Char) (hd : isUnresChar d = false) : d ∉ l := by
  intro hm
  exact (unres_ne (h d hm) d hd) rfl

/-! ## Helper lemmas: `create_parameter_map` invariants -/

theorem processPairs_sorted {R : Type} (E : RegexEngine R) (rules : List R) :
    ∀ (pairs : List (List Char)) (acc : List (String × String)), SortedKeys acc →
      SortedKeys (processPairs E rules pairs acc)
  | [], _, h => h
  | pair :: rest, acc, h => by
    simp only [processPairs]
    split_ifs with h1
    · exact processPairs_sorted E rules rest acc h
    · cases hpt : pairTokens pair with
      | none => exact processPairs_sorted E rules rest acc h
      | some kv =>
        show SortedKeys (if rules.any (fun re => E.isMatch re kv.1) then
            processPairs E rules rest acc
          else processPairs E rules rest (insertSorted kv.1 kv.2 acc))
        split_ifs with h2
        · exact processPairs_sorted E rules rest acc h
        · exact processPairs_sorted E rules rest _ (insertSorted_sorted kv.1 kv.2 acc h)

theorem processPairs_entries {R : Type} (E : RegexEngine R) (rules : List R)
    (P : String × String → Prop) :
    ∀ (pairs : List (List Char)) (acc : List (String × String)),
      (∀ kv ∈ acc, P kv) →
      (∀ pair ∈ pairs, ∀ kv, pairTokens pair = some kv →
        rules.any (fun re => E.isMatch re kv.1) = false → P kv) →
      ∀ kv ∈ processPairs E rules pairs acc, P kv
  | [], _, hacc, _, kv, hkv => hacc kv hkv
  | pair :: rest, acc, hacc, hp, kv, hkv => by
    have hrest : ∀ q ∈ rest, ∀ kv2, pairTokens q = some kv2 →
        rules.any (fun re => E.isMatch re kv2.1) = false → P kv2 :=
      fun q hq => hp q (List.mem_cons_of_mem _ hq)
    simp only [processPairs] at hkv
    revert hkv
    split_ifs with h1
    · exact fun hkv => processPairs_entries E rules P rest acc hacc hrest kv hkv
    · cases hpt : pairTokens pair with
      | none => exact fun hkv => processPairs_entries E rules P rest acc hacc hrest kv hkv
      | some kv2 =>
        show kv ∈ (if rules.any (fun re => E.isMatch re kv2.1) then
            processPairs E rules rest acc
          else processPairs E rules rest (insertSorted kv2.1 kv2.2 acc)) → P kv
        split_ifs with h2
        · exact fun hkv => processPairs_entries E rules P rest acc hacc hrest kv hkv
        · intro hkv
          refine processPairs_entries E rules P rest _ ?_ hrest kv hkv
          intro kv3 hkv3
          rcases mem_insertSorted kv2.1 kv2.2 acc kv3 hkv3 with h3 | h3
          · subst h3
            exact hp pair (List.mem_cons_self _ _) kv2 hpt (bool_eq_false h2)
          · exact hacc kv3 h3

theorem processPairs_keys_mono {R : Type} (E : RegexEngine R) (rules : List R) :
    ∀ (pairs : List (List Char)) (acc : List (String × String)) (k : String),
      k ∈ acc.map Prod.fst → k ∈ (processPairs E rules pairs acc).map Prod.fst
  | [], _, _, hk => hk
  | pair :: rest, acc, k, hk => by
    simp only [processPairs]
    split_ifs with h1
    · exact processPairs_keys_mono E rules rest acc k hk
    · cases hpt : pairTokens pair with
      | none => exact processPairs_keys_mono E rules rest acc k hk
      | some kv =>
        show k ∈ ((if rules.any (fun re => E.isMatch re kv.1) then
            processPairs E rules rest acc
          else processPairs E rules rest (insertSorted kv.1 kv.2 acc)).map Prod.fst)
        split_ifs with h2
        · exact processPairs_keys_mono E rules rest acc k hk
        · exact processPairs_keys_mono E rules rest _ k
            (key_mem_insertSorted_of kv.1 kv.2 k acc hk)

theorem processPairs_key_mem {R : Type} (E : RegexEngine R) (rules : List R) :
    ∀ (pairs : List (List Char)) (acc : List (String × String)) (pair : List Char)
      (kv : String × String),
      pair ∈ pairs → pair ≠ [] → pairTokens pair = some kv →
      rules.any (fun re => E.isMatch re kv.1) = false →
      kv.1 ∈ (processPairs E rules pairs acc).map Prod.fst
  | [], _, _, _, hmem, _, _, _ => absurd hmem (List.not_mem_nil _)
  | pair2 :: rest, acc, pair, kv, hmem, hne, hpt, hum => by
    rcases List.mem_cons.mp hmem with heq | hmem2
    · subst heq
      simp only [processPairs]
      rw [if_neg (by
        intro hlen
        exact hne (List.length_eq_zero.mp (by omega)))]
      rw [hpt]
      show kv.1 ∈ ((if rules.any (fun re => E.isMatch re kv.1) then
          processPairs E rules rest acc
        else processPairs E rules rest (insertSorted kv.1 kv.2 acc)).map Prod.fst)
      rw [if_neg (by rw [hum]; exact Bool.noConfusion)]
      exact processPairs_keys_mono E rules rest _ kv.1 (key_mem_insertSorted_self kv.1 kv.2 acc)
    · simp only [processPairs]
      split_ifs with h1
      · exact processPairs_key_mem E rules rest acc pair kv hmem2 hne hpt hum
      · cases hpt2 : pairTokens pair2 with
        | none => exact processPairs_key_mem E rules rest acc pair kv hmem2 hne hpt hum
        | some kv2 =>
          show kv.1 ∈ ((if rules.any (fun re => E.isMatch re kv2.1) then
              processPairs E rules rest acc
            else processPairs E rules rest (insertSorted kv2.1 kv2.2 acc)).map Prod.fst)
          split_ifs with h2
          · exact processPairs_key_mem E rules rest acc pair kv hmem2 hne hpt hum
          · exact processPairs_key_mem E rules rest _ pair kv hmem2 hne hpt hum

/-! ## Helper lemmas: token extraction -/

theorem pairTokens_no_eq (t d : List Char) (hne : t ≠ []) (hno : '=' ∉ t)
    (hd : Urlencoding.decode t = some d) :
    pairTokens t = some (String.mk d, "") := by
  have hparts : decodedParts t = [String.mk d] := by
    unfold decodedParts splitnEq
    rw [splitFirst_not_mem t hno]
    rw [show List.map Urlencoding.decode [t] = [some d] by rw [List.map_cons, hd]; rfl]
    rfl
  unfold pairTokens
  rw [hparts]
  match t, hne, hno with
  | c :: t2, _, hno =>
    have hc : c ≠ '=' := fun he => hno (he ▸ List.mem_cons_self _ _)
    show (if (String.mk (c :: t2)).toList.head? = some '=' then some ("", String.mk d)
          else some (String.mk d, "")) = some (String.mk d, "")
    rw [if_neg (by simpa using hc)]

theorem pairTokens_eq_split (k v dk dv : List Char) (hk : '=' ∉ k)
    (hdk : Urlencoding.decode k = some dk) (hdv : Urlencoding.decode v = some dv) :
    pairTokens (k ++ '=' :: v) = some (String.mk dk, String.mk dv) := by
  have hparts : decodedParts (k ++ '=' :: v) = [String.mk dk, String.mk dv] := by
    unfold decodedParts splitnEq
    rw [splitFirst_append k v hk]
    rw [show List.map Urlencoding.decode [k, v] = [some dk, some dv] by
      rw [List.map_cons, List.map_cons, hdk, hdv]; rfl]
    rfl
  unfold pairTokens
  rw [hparts]
  rfl

theorem pairTokens_render (k v : String)
    (hk : ∀ c ∈ k.toList, isUnresChar c = true)
    (hv : ∀ c ∈ v.toList, isUnresChar c = true ∨ c = '=') :
    pairTokens (k.toList ++ '=' :: v.toList) = some (k, v) := by
  rw [pairTokens_eq_split k.toList v.toList k.toList v.toList
    (unres_not_mem hk '=' (by decide))
    (decode_id k.toList (fun c hc =>
      ⟨(unres_toNat_facts (hk c hc)).1, (unres_toNat_facts (hk c hc)).2.1⟩))
    (decode_id_unres v.toList hv)]
  rw [mk_toList, mk_toList]

theorem processPairs_render {R : Type} (E : RegexEngine R) (rules : List R) :
    ∀ (m acc : List (String × String)),
      (∀ kv ∈ m, (∀ c ∈ kv.1.toList, isUnresChar c = true) ∧
        (∀ c ∈ kv.2.toList, isUnresChar c = true ∨ c = '=') ∧
        rules.any (fun re => E.isMatch re kv.1) = false) →
      (∀ kv ∈ m, ∀ kv2 ∈ acc, strLt kv2.1 kv.1 = true) →
      SortedKeys m →
      processPairs E rules (m.map (fun kv => kv.1.toList ++ '=' :: kv.2.toList)) acc
        = acc ++ m
  | [], acc, _, _, _ => by simp [processPairs]
  | (k, v) :: m2, acc, hchars, hlt, hsort => by
    obtain ⟨hk, hv, hum⟩ := hchars (k, v) (List.mem_cons_self _ _)
    simp only [List.map_cons, processPairs]
    rw [if_neg (by simp)]
    rw [pairTokens_render k v hk hv]
    show (if rules.any (fun re => E.isMatch re k) then
        processPairs E rules (m2.map (fun kv => kv.1.toList ++ '=' :: kv.2.toList)) acc
      else processPairs E rules (m2.map (fun kv => kv.1.toList ++ '=' :: kv.2.toList))
        (insertSorted k v acc)) = acc ++ (k, v) :: m2
    rw [if_neg (by rw [hum]; exact Bool.noConfusion)]
    rw [insertSorted_append_of_lt k v acc
      (fun kv2 hkv2 => hlt (k, v) (List.mem_cons_self _ _) kv2 hkv2)]
    rw [processPairs_render E rules m2 (acc ++ [(k, v)])
      (fun kv hkv => hchars kv (List.mem_cons_of_mem _ hkv))
      (by
        intro kv hkv kv2 hkv2
        rcases List.mem_append.mp hkv2 with h2 | h2
        · exact hlt kv (List.mem_cons_of_mem _ hkv) kv2 h2
        · rcases List.mem_singleton.mp h2 with rfl
          exact (List.pairwise_cons.mp hsort).1 kv hkv)
      (List.pairwise_cons.mp hsort).2]
    simp

/-! ## Helper lemmas: the path fast path and the `/$` removal -/

theorem toList_ne_nil {s : String} (h : s ≠ "") : s.toList ≠ [] := by
  intro he
  exact h (by rw [← mk_toList s, he])

theorem normalize_path_normal (p : String) (hne : p ≠ "")
    (h : needs_normalization p.toList.toArray < 0) :
    normalize_path p = some (Except.ok p) := by
  unfold normalize_path
  rw [if_neg (by
    intro hsz
    simp only [Array.size_toArray] at hsz
    exact toList_ne_nil hne (List.length_eq_zero.mp hsz))]
  rw [if_pos h]

theorem hasSlashDollar_false_replace : ∀ cs : List Char, hasSlashDollar cs = false →
    replaceSlashDollar cs = cs
  | [], _ => rfl
  | [c], _ => rfl
  | c :: d :: rest, h => by
    simp only [hasSlashDollar, Bool.or_eq_false_iff, Bool.and_eq_false_iff,
      decide_eq_false_iff_not] at h
    simp only [replaceSlashDollar]
    rw [if_neg (by tauto)]
    rw [hasSlashDollar_false_replace (d :: rest) h.2]

theorem no_dollar_hasSlashDollar : ∀ cs : List Char, '$' ∉ cs → hasSlashDollar cs = false
  | [], _ => rfl
  | [c], _ => rfl
  | c :: d :: rest, h => by
    have hd : d ≠ '$' := fun he => h (he ▸ List.mem_cons_of_mem _ (List.mem_cons_self _ _))
    simp only [hasSlashDollar, Bool.or_eq_false_iff, Bool.and_eq_false_iff,
      decide_eq_false_iff_not]
    exact ⟨Or.inr hd,
      no_dollar_hasSlashDollar (d :: rest) (fun hm => h (List.mem_cons_of_mem _ hm))⟩

theorem replaceSlashDollar_id_of_no_dollar (cs : List Char) (h : '$' ∉ cs) :
    replaceSlashDollar cs = cs :=
  hasSlashDollar_false_replace cs (no_dollar_hasSlashDollar cs h)

/-! ## Helper lemmas: takeWhile / dropWhile over appends -/

theorem takeWhile_append_all {α : Type} (p : α → Bool) :
    ∀ (xs ys : List α), (∀ x ∈ xs, p x = true) →
      (xs ++ ys).takeWhile p = xs ++ ys.takeWhile p
  | [], ys, _ => rfl
  | x :: xs, ys, h => by
    simp [List.takeWhile_cons, h x (List.mem_cons_self _ _),
      takeWhile_append_all p xs ys (fun a ha => h a (List.mem_cons_of_mem _ ha))]

theorem takeWhile_cons_false {α : Type} (p : α → Bool) (x : α) (xs : List α)
    (h : p x = false) : (x :: xs).takeWhile p = [] := by
  simp [List.takeWhile_cons, h]

theorem dropWhile_append_all {α : Type} (p : α → Bool) :
    ∀ (xs ys : List α), (∀ x ∈ xs, p x = true) →
      (xs ++ ys).dropWhile p = ys.dropWhile p
  | [], ys, _ => rfl
  | x :: xs, ys, h => by
    simp [List.dropWhile_cons, h x (List.mem_cons_self _ _),
      dropWhile_append_all p xs ys (fun a ha => h a (List.mem_cons_of_mem _ ha))]

theorem dropWhile_cons_false {α : Type} (p : α → Bool) (x : α) (xs : List α)
    (h : p x = false) : (x :: xs).dropWhile p = x :: xs := by
  simp [List.dropWhile_cons, h]

theorem splitFirst_none {sep : Char} : ∀ cs : List Char, splitFirst sep cs = none → sep ∉ cs
  | [], _ => by simp
  | c :: rest, h => by
    simp only [splitFirst] at h
    intro hm
    rcases List.mem_cons.mp hm with hm | hm
    · rw [if_pos hm.symm] at h
      exact Option.noConfusion h
    · by_cases hc : c = sep
      · rw [if_pos hc] at h
        exact Option.noConfusion h
      · rw [if_neg hc] at h
        revert h
        cases hsf : splitFirst sep rest with
        | none => exact fun _ => splitFirst_none rest hsf hm
        | some ab =>
          obtain ⟨a, b⟩ := ab
          exact fun hcon => Option.noConfusion hcon

/-! ## Helper lemmas: character classes vs whitespace and delimiters -/

theorem not_ws_of_toNat {c : Char} (h : c.toNat ≠ 32 ∧ c.toNat ≠ 9 ∧ c.toNat ≠ 13 ∧
    c.toNat ≠ 10) : c.isWhitespace = false := by
  have h1 : c ≠ ' ' := fun he => h.1 (by rw [he]; rfl)
  have h2 : c ≠ '\t' := fun he => h.2.1 (by rw [he]; rfl)
  have h3 : c ≠ '\r' := fun he => h.2.2.1 (by rw [he]; rfl)
  have h4 : c ≠ '\n' := fun he => h.2.2.2 (by rw [he]; rfl)
  simp [Char.isWhitespace, h1, h2, h3, h4]

theorem lowerAlpha_toNat {c : Char} (h : isLowerAlpha c = true) :
    97 ≤ c.toNat ∧ c.toNat ≤ 122 := by
  simp only [isLowerAlpha, Bool.and_eq_true, decide_eq_true_eq] at h
  exact h

theorem hostChar_toNat {c : Char} (h : isHostChar c = true) :
    c.toNat < 128 ∧ c.toNat ≠ 58 ∧ c.toNat ≠ 47 ∧ c.toNat ≠ 63 ∧ c.toNat ≠ 32 ∧
      c.toNat ≠ 9 ∧ c.toNat ≠ 13 ∧ c.toNat ≠ 10 := by
  simp only [isHostChar, isLowerAlpha, Bool.or_eq_true, Bool.and_eq_true,
    decide_eq_true_eq, beq_iff_eq] at h
  rcases h with ((((h | h) | h) | h) | h) | h
  · omega
  · omega
  · rw [h]; simp
  · rw [h]; simp
  · rw [h]; simp
  · rw [h]; simp

theorem queryChar_cases {c : Char} (h : isQueryChar c = true) :
    isUnresChar c = true ∨ c = '=' ∨ c = '&' := by
  simp only [isQueryChar, Bool.or_eq_true, beq_iff_eq] at h
  tauto

theorem pathChar_cases {c : Char} (h : isPathChar c = true) :
    isUnresChar c = true ∨ c = '/' := by
  simp only [isPathChar, Bool.or_eq_true, beq_iff_eq] at h
  tauto

theorem charToNat_eq {c d : Char} (h : c = d) : c.toNat = d.toNat := by rw [h]

/-! ## Helper lemmas: characters of the extracted tokens -/

theorem pairTokens_chars (pair : List Char)
    (h : ∀ c ∈ pair, isUnresChar c = true ∨ c = '=') (kv : String × String)
    (hpt : pairTokens pair = some kv) :
    (∀ c ∈ kv.1.toList, isUnresChar c = true) ∧
      (∀ c ∈ kv.2.toList, isUnresChar c = true ∨ c = '=') := by
  cases hsf : splitFirst '=' pair with
  | none =>
    have hno : '=' ∉ pair := splitFirst_none pair hsf
    have hunres : ∀ c ∈ pair, isUnresChar c = true := by
      intro c hc
      rcases h c hc with h1 | h1
      · exact h1
      · exact absurd (h1 ▸ hc) hno
    match pair, hpt, hno, hunres with
    | [], hpt, _, _ =>
      have h0 : pairTokens ([] : List Char) = some ("", "") := rfl
      rw [h0] at hpt
      obtain rfl : (("" : String), ("" : String)) = kv := by injection hpt
      exact ⟨by simp, by simp⟩
    | c :: pr, hpt, hno, hunres =>
      rw [pairTokens_no_eq (c :: pr) (c :: pr) (by simp) hno
        (decode_id _ (fun c2 hc2 => ⟨(unres_toNat_facts (hunres c2 hc2)).1,
          (unres_toNat_facts (hunres c2 hc2)).2.1⟩))] at hpt
      obtain rfl : (String.mk (c :: pr), ("" : String)) = kv := by injection hpt
      exact ⟨hunres, by simp⟩
  | some ab =>
    obtain ⟨a, b⟩ := ab
    obtain ⟨hre, hnomem⟩ := splitFirst_some pair a b hsf
    subst hre
    have ha : ∀ c ∈ a, isUnresChar c = true := by
      intro c hc
      rcases h c (List.mem_append.mpr (Or.inl hc)) with h1 | h1
      · exact h1
      · exact absurd (h1 ▸ hc) hnomem
    have hb : ∀ c ∈ b, isUnresChar c = true ∨ c = '=' := fun c hc =>
      h c (List.mem_append.mpr (Or.inr (List.mem_cons_of_mem _ hc)))
    rw [pairTokens_eq_split a b a b hnomem
      (decode_id a (fun c hc => ⟨(unres_toNat_facts (ha c hc)).1,
        (unres_toNat_facts (ha c hc)).2.1⟩))
      (decode_id_unres b hb)] at hpt
    obtain rfl : (String.mk a, String.mk b) = kv := by injection hpt
    exact ⟨ha, hb⟩

/-! ## Helper lemmas: packaged facts about `create_parameter_map` -/

theorem cpm_ok_some {R : Type} (E : RegexEngine R) (q : String) (ps : Option (List String))
    (m : List (String × String)) (h : create_parameter_map E (some q) ps = Except.ok m) :
    ∃ rules, compileRules E ps = Except.ok rules ∧
      m = processPairs E rules (splitOnChar '&' q.toList) [] := by
  unfold create_parameter_map at h
  revert h
  cases hc : compileRules E ps with
  | error e => exact fun h => Except.noConfusion h
  | ok rules =>
    intro h
    injection h with h2
    exact ⟨rules, rfl, h2.symm⟩

theorem cpm_sorted {R : Type} (E : RegexEngine R) (q : Option String)
    (ps : Option (List String)) (m : List (String × String))
    (h : create_parameter_map E q ps = Except.ok m) : SortedKeys m := by
  cases q with
  | none =>
    unfold create_parameter_map at h
    injection h with h2
    subst h2
    exact List.Pairwise.nil
  | some q =>
    obtain ⟨rules, hc, rfl⟩ := cpm_ok_some E q ps m h
    exact processPairs_sorted E rules _ [] List.Pairwise.nil

theorem cpm_unmatched {R : Type} (E : RegexEngine R) (q : String) (ps : Option (List String))
    (m : List (String × String)) (rules : List R)
    (hc : compileRules E ps = Except.ok rules)
    (h : create_parameter_map E (some q) ps = Except.ok m) :
    ∀ kv ∈ m, ∀ re ∈ rules, E.isMatch re kv.1 = false := by
  obtain ⟨rules2, hc2, rfl⟩ := cpm_ok_some E q ps m h
  obtain rfl : rules = rules2 := by
    rw [hc] at hc2
    injection hc2
  intro kv hkv re hre
  have hall : rules.any (fun re2 => E.isMatch re2 kv.1) = false :=
    processPairs_entries E rules
      (fun kv2 => rules.any (fun re2 => E.isMatch re2 kv2.1) = false) _ [] (by simp)
      (fun pair hp kv2 hpt hany => hany) kv hkv
  exact bool_eq_false (List.any_eq_false.mp hall re hre)

theorem cpm_chars {R : Type} (E : RegexEngine R) (q : String) (ps : Option (List String))
    (m : List (String × String))
    (hq : ∀ c ∈ q.toList, isQueryChar c = true)
    (h : create_parameter_map E (some q) ps = Except.ok m) :
    ∀ kv ∈ m, (∀ c ∈ kv.1.toList, isUnresChar c = true) ∧
      (∀ c ∈ kv.2.toList, isUnresChar c = true ∨ c = '=') := by
  obtain ⟨rules, hc, rfl⟩ := cpm_ok_some E q ps m h
  refine processPairs_entries E rules _ _ [] (by simp) ?_
  intro pair hp kv hpt hany
  refine pairTokens_chars pair ?_ kv hpt
  intro c hc2
  have hmem := splitOnChar_mem q.toList pair hp c hc2
  rcases queryChar_cases (hq c hmem.1) with h1 | h1 | h1
  · exact Or.inl h1
  · exact Or.inr h1
  · exact absurd h1 hmem.2

/-! ## Helper lemmas: the orchestrator run on an already-normal path -/

theorem map_id_of {α : Type} (f : α → α) : ∀ l : List α, (∀ a ∈ l, f a = a) → l.map f = l
  | [], _ => rfl
  | x :: xs, h => by
    rw [List.map_cons, h x (List.mem_cons_self _ _),
      map_id_of f xs (fun a ha => h a (List.mem_cons_of_mem _ ha))]

theorem is_opaque_false (u : ParsedUrl) (h : u.path ≠ "") : is_opaque u = false := by
  simp [ is_opaque, h]

theorem normalize_url_normal (u : ParsedUrl) (h1 : u.path ≠ "")
    (h2 : ∀ c ∈ u.path.toList, isPathChar c = true)
    (h3 : needs_normalization u.path.toList.toArray < 0) :
    normalize_url u = some (Except.ok u) := by
  have hrep : replaceSlashDollar u.path.toList = u.path.toList :=
    replaceSlashDollar_id_of_no_dollar _ (by
      intro hm
      exact absurd (h2 '$' hm) (by decide))
  unfold normalize_url
  rw [if_neg (by
    rw [ is_opaque_false u h1]
    exact fun hx => Bool.noConfusion hx)]
  rw [normalize_path_normal u.path h1 h3]
  show (let np := String.mk (replaceSlashDollar u.path.toList);
    if np = u.path then some (Except.ok u)
    else some (Except.ok { u with path := np })) = some (Except.ok u)
  rw [hrep, mk_toList]
  simp

theorem normalize_run {R : Type} (E : RegexEngine R) (u : ParsedUrl)
    (ps : Option (List String))
    (h1 : u.path.toList.head? = some '/')
    (h2 : ∀ c ∈ u.path.toList, isPathChar c = true)
    (h3 : needs_normalization u.path.toList.toArray < 0) :
    normalize E u ps =
      some ((create_parameter_map E u.query ps).map
        (fun params => to_normalized_url u params u.path)) := by
  have hne : u.path ≠ "" := by
    intro he
    rw [he] at h1
    exact Option.noConfusion h1
  have hsegs : (splitOnChar '/' u.path.toList).map
      (fun seg => (Urlencoding.encode (String.mk seg)).toList)
      = splitOnChar '/' u.path.toList := by
    refine map_id_of _ _ ?_
    intro seg hseg
    have hch : ∀ c ∈ seg, isUnresChar c = true := by
      intro c hc
      have hm := splitOnChar_mem u.path.toList seg hseg c hc
      rcases pathChar_cases (h2 c hm.1) with hx | hx
      · exact hx
      · exact absurd hx hm.2
    rw [encode_id seg hch]
    rfl
  unfold normalize
  rw [normalize_url_normal u hne h2 h3]
  show (match create_parameter_map E u.query ps with
    | Except.error e => some (Except.error e)
    | Except.ok params => some (Except.ok (to_normalized_url u params (String.mk
        (joinWithChar '/' ((splitOnChar '/' u.path.toList).map
          (fun seg => (Urlencoding.encode (String.mk seg)).toList)))))))
    = some ((create_parameter_map E u.query ps).map
        (fun params => to_normalized_url u params u.path))
  rw [hsegs, joinWithChar_splitOnChar, mk_toList]
  cases hc : create_parameter_map E u.query ps with
  | error e => rfl
  | ok params => rfl

/-! ## Helper lemmas: parsing back the assembled URL -/

theorem toList_append (a b : String) : (a ++ b).toList = a.toList ++ b.toList := by
  cases a
  cases b
  rfl

/-- The port component `to_normalized_url` emits for a port the parser reads
back as `prt` (absent, or a non-80 explicit port). -/
def renderPort : Option Nat → List Char
  | none => []
  | some p => ':' :: natDigits p

/-- The query component for a parsed-back query `qopt`. -/
def renderQuery : Option (List Char) → List Char
  | none => []
  | some q => '?' :: q

theorem hostChar_pred {c : Char} (h : isHostChar c = true) :
    (decide (¬ (c = '/' ∨ c = '?'))) = true := by
  have hf := hostChar_toNat h
  simp only [decide_eq_true_eq]
  intro hor
  rcases hor with rfl | rfl
  · exact hf.2.2.1 rfl
  · exact hf.2.2.2.1 rfl

theorem renderPort_pred (prt : Option Nat) :
    ∀ c ∈ renderPort prt, (decide (¬ (c = '/' ∨ c = '?'))) = true := by
  intro c hc
  cases prt with
  | none => simp [renderPort] at hc
  | some p =>
    simp only [renderPort] at hc
    simp only [decide_eq_true_eq]
    rcases List.mem_cons.mp hc with rfl | hc
    · intro hor
      rcases hor with h | h
      · exact absurd h (by decide)
      · exact absurd h (by decide)
    · have := natDigits_are_digits p c hc
      intro hor
      rcases hor with rfl | rfl
      · exact absurd this (by decide)
      · exact absurd this (by decide)

theorem parseUrl_inv (s : String) (sch hst : List Char) (prt : Option Nat)
    (pth : List Char) (qopt : Option (List Char))
    (hs : s.toList = sch ++ ':' :: '/' :: '/' ::
      (hst ++ renderPort prt ++ pth ++ renderQuery qopt))
    (hs1 : sch ≠ []) (hs2 : ∀ c ∈ sch, isLowerAlpha c = true)
    (hh2 : ∀ c ∈ hst, isHostChar c = true)
    (hp : ∀ p, prt = some p → p < 65536)
    (hpt1 : pth.head? = some '/')
    (hpt2 : '?' ∉ pth) :
    parseUrl s = some (ParsedUrl.mk (String.mk sch) (some (String.mk hst)) prt
      (String.mk pth) (qopt.map String.mk)) := by
  have hschNoColon : ':' ∉ sch := by
    intro hm
    have h1 := lowerAlpha_toNat (hs2 ':' hm)
    have h2 : (':' : Char).toNat = 58 := rfl
    omega
  have hstNoColon : ':' ∉ hst := by
    intro hm
    exact (hostChar_toNat (hh2 ':' hm)).2.1 rfl
  obtain ⟨pth2, rfl⟩ : ∃ pth2, pth = '/' :: pth2 := by
    cases pth with
    | nil => exact Option.noConfusion hpt1
    | cons a b =>
      injection hpt1 with hh
      exact ⟨b, by rw [hh]⟩
  have hpred1 : ∀ c ∈ hst ++ renderPort prt, (decide (¬ (c = '/' ∨ c = '?'))) = true := by
    intro c hc
    rcases List.mem_append.mp hc with hc | hc
    · exact hostChar_pred (hh2 c hc)
    · exact renderPort_pred prt c hc
  have hauth : (hst ++ renderPort prt ++ ('/' :: pth2) ++ renderQuery qopt).takeWhile
      (fun c => decide (¬ (c = '/' ∨ c = '?'))) = hst ++ renderPort prt := by
    rw [List.append_assoc (hst ++ renderPort prt)]
    rw [takeWhile_append_all _ _ _ hpred1]
    rw [List.cons_append]
    rw [takeWhile_cons_false _ _ _ (by simp)]
    rw [List.append_nil]
  have hafter : (hst ++ renderPort prt ++ ('/' :: pth2) ++ renderQuery qopt).dropWhile
      (fun c => decide (¬ (c = '/' ∨ c = '?'))) = ('/' :: pth2) ++ renderQuery qopt := by
    rw [List.append_assoc (hst ++ renderPort prt)]
    rw [dropWhile_append_all _ _ _ hpred1]
    rw [List.cons_append]
    rw [dropWhile_cons_false _ _ _ (by simp)]
  have hpa : parseAuthority (hst ++ renderPort prt) = some (hst, prt) := by
    cases prt with
    | none =>
      show parseAuthority (hst ++ []) = some (hst, none)
      rw [List.append_nil]
      unfold parseAuthority
      rw [splitFirst_not_mem hst hstNoColon]
    | some p =>
      show parseAuthority (hst ++ ':' :: natDigits p) = some (hst, some p)
      unfold parseAuthority
      rw [splitFirst_append hst (natDigits p) hstNoColon]
      show (if natDigits p = [] then some (hst, none)
        else if (natDigits p).all (fun c => 48 ≤ c.toNat && c.toNat ≤ 57) then
          (if natFromDigits (natDigits p) < 65536
            then some (hst, some (natFromDigits (natDigits p))) else none)
        else none) = some (hst, some p)
      rw [if_neg (natDigits_ne_nil p)]
      rw [if_pos (by
        rw [List.all_eq_true]
        intro c hc
        have := natDigits_are_digits p c hc
        simp only [Bool.and_eq_true, decide_eq_true_eq]
        omega)]
      rw [natFromDigits_natDigits]
      rw [if_pos (hp p rfl)]
  unfold parseUrl
  rw [hs]
  rw [splitFirst_append sch _ hschNoColon]
  match sch, hs1, hs2, hschNoColon with
  | c0 :: sch2, _, hs2, _ =>
    have hc0 := lowerAlpha_toNat (hs2 c0 (List.mem_cons_self _ _))
    have hvalid : validSchemeChars (c0 :: sch2) = true := by
      unfold validSchemeChars
      rw [List.all_eq_true]
      intro c hc
      have hcl := lowerAlpha_toNat (hs2 c hc)
      simp only [Bool.or_eq_true, Bool.and_eq_true, decide_eq_true_eq, beq_iff_eq]
      exact Or.inl (Or.inl (Or.inl (Or.inl (Or.inl ⟨hcl.1, hcl.2⟩))))
    show (if ((97 ≤ c0.toNat ∧ c0.toNat ≤ 122) ∨ (65 ≤ c0.toNat ∧ c0.toNat ≤ 90)) ∧
        validSchemeChars (c0 :: sch2) = true then _ else none) = _
    rw [if_pos ⟨Or.inl ⟨hc0.1, hc0.2⟩, hvalid⟩]
    show (if ('/' : Char) = '/' ∧ ('/' : Char) = '/' then _ else none) = _
    rw [if_pos ⟨rfl, rfl⟩]
    simp only [hauth, hafter, hpa]
    cases qopt with
    | none =>
      show (match splitFirst '?' (('/' :: pth2) ++ []) with
        | none => some (ParsedUrl.mk (String.mk (c0 :: sch2)) (some (String.mk hst)) prt
            (String.mk (('/' :: pth2) ++ [])) none)
        | some (pa, q) => some (ParsedUrl.mk (String.mk (c0 :: sch2)) (some (String.mk hst))
            prt (String.mk pa) (some (String.mk q)))) = _
      rw [List.append_nil]
      rw [splitFirst_not_mem _ hpt2]
      rfl
    | some q =>
      show (match splitFirst '?' (('/' :: pth2) ++ '?' :: q) with
        | none => some (ParsedUrl.mk (String.mk (c0 :: sch2)) (some (String.mk hst)) prt
            (String.mk (('/' :: pth2) ++ '?' :: q)) none)
        | some (pa, q2) => some (ParsedUrl.mk (String.mk (c0 :: sch2)) (some (String.mk hst))
            prt (String.mk pa) (some (String.mk q2)))) = _
      rw [splitFirst_append _ q hpt2]
      rfl

/-! ## Helper lemmas: rendering the query string and the whole URL -/

theorem joinStrings_toList : ∀ m : List (String × String),
    (joinStrings "&" (m.map fun p => p.1 ++ "=" ++ p.2)).toList
      = joinWithChar '&' (m.map fun kv => kv.1.toList ++ '=' :: kv.2.toList)
  | [] => rfl
  | [kv] => by
    show (kv.1 ++ "=" ++ kv.2).toList = kv.1.toList ++ '=' :: kv.2.toList
    rw [toList_append, toList_append]
    simp
  | kv :: kv2 :: rest => by
    show (kv.1 ++ "=" ++ kv.2 ++ "&" ++
        joinStrings "&" ((kv2 :: rest).map fun p => p.1 ++ "=" ++ p.2)).toList
      = (kv.1.toList ++ '=' :: kv.2.toList) ++
        '&' :: joinWithChar '&' ((kv2 :: rest).map fun kv => kv.1.toList ++ '=' :: kv.2.toList)
    rw [toList_append, toList_append, toList_append, toList_append,
      joinStrings_toList (kv2 :: rest)]
    simp

theorem cpm_render {R : Type} (E : RegexEngine R) (ps : Option (List String)) (rules : List R)
    (m : List (String × String))
    (hc : compileRules E ps = Except.ok rules)
    (hchars : ∀ kv ∈ m, (∀ c ∈ kv.1.toList, isUnresChar c = true) ∧
      (∀ c ∈ kv.2.toList, isUnresChar c = true ∨ c = '='))
    (hum : ∀ kv ∈ m, rules.any (fun re => E.isMatch re kv.1) = false)
    (hsort : SortedKeys m) (hm : m ≠ []) :
    create_parameter_map E (some (joinStrings "&" (m.map fun p => p.1 ++ "=" ++ p.2))) ps
      = Except.ok m := by
  unfold create_parameter_map
  rw [hc]
  show Except.ok (processPairs E rules
    (splitOnChar '&' (joinStrings "&" (m.map fun p => p.1 ++ "=" ++ p.2)).toList) [])
    = Except.ok m
  rw [joinStrings_toList]
  rw [splitOnChar_join (m.map fun kv => kv.1.toList ++ '=' :: kv.2.toList)
    (by
      intro he
      exact hm (List.map_eq_nil_iff.mp he))
    (by
      intro g hg
      rcases List.mem_map.mp hg with ⟨kv, hkv, rfl⟩
      intro hmem
      rcases List.mem_append.mp hmem with hmem | hmem
      · exact absurd ((hchars kv hkv).1 '&' hmem) (by decide)
      · rcases List.mem_cons.mp hmem with he | hmem
        · exact absurd he (by decide)
        · rcases (hchars kv hkv).2 '&' hmem with hx | hx
          · exact absurd hx (by decide)
          · exact absurd hx (by decide))]
  rw [processPairs_render E rules m []
    (fun kv hkv => ⟨(hchars kv hkv).1, (hchars kv hkv).2, hum kv hkv⟩)
    (by
      intro kv _ kv2 h2
      exact absurd h2 (List.not_mem_nil _))
    hsort]
  rw [List.nil_append]

/-- The parsed-back port of a URL: absent ports and port 80 both come back
as absent, anything else survives. -/
def portBack : Option Nat → Option Nat
  | none => none
  | some p => if p = 80 then none else some p

theorem to_normalized_url_toList (u : ParsedUrl) (h : String) (hh : u.host = some h)
    (m : List (String × String)) (np : String) :
    (to_normalized_url u m np).toList
      = u.scheme.toList ++ ':' :: '/' :: '/' ::
        (h.toList ++ renderPort (portBack u.port) ++ np.toList ++
          renderQuery (if m.isEmpty then none
            else some (joinStrings "&" (m.map fun p => p.1 ++ "=" ++ p.2)).toList)) := by
  unfold to_normalized_url
  rw [hh]
  cases hm : m.isEmpty with
  | true =>
    have hm2 : m = [] := by
      cases m
      · rfl
      · exact Bool.noConfusion hm
    subst hm2
    cases hport : u.port with
    | none =>
      simp only [portBack, renderPort, renderQuery, List.map_nil, List.isEmpty_nil,
        joinStrings, if_pos rfl]
      rw [toList_append, toList_append, toList_append, toList_append, toList_append]
      simp
    | some p =>
      by_cases hp : p = 80
      · subst hp
        simp only [portBack, renderPort, renderQuery, List.map_nil, List.isEmpty_nil,
          joinStrings, if_pos rfl]
        rw [toList_append, toList_append, toList_append, toList_append, toList_append]
        simp
      · simp only [portBack, renderPort, renderQuery, List.map_nil, List.isEmpty_nil,
          joinStrings, if_neg hp, if_pos rfl]
        rw [toList_append, toList_append, toList_append, toList_append, toList_append,
          toList_append]
        simp
  | false =>
    have hm2 : ¬ (m.map (fun p => p.1 ++ "=" ++ p.2)).isEmpty = true := by
      cases m
      · exact Bool.noConfusion hm
      · simp
    cases hport : u.port with
    | none =>
      simp only [portBack, renderPort, renderQuery, if_neg hm2]
      rw [toList_append, toList_append, toList_append, toList_append, toList_append,
        toList_append]
      simp
    | some p =>
      by_cases hp : p = 80
      · subst hp
        simp only [portBack, renderPort, renderQuery, if_neg hm2, if_pos rfl]
        rw [toList_append, toList_append, toList_append, toList_append, toList_append,
          toList_append]
        simp
      · simp only [portBack, renderPort, renderQuery, if_neg hm2, if_neg hp]
        rw [toList_append, toList_append, toList_append, toList_append, toList_append,
          toList_append, toList_append]
        simp

theorem not_ws_unres {c : Char} (h : isUnresChar c = true) : c.isWhitespace = false := by
  obtain ⟨-, -, -, -, -, -, -, -, -, h32, h9, h13, h10⟩ := unres_toNat_facts h
  exact not_ws_of_toNat ⟨h32, h9, h13, h10⟩

theorem joinWithChar_mem {sep : Char} : ∀ (gs : List (List Char)) (c : Char),
    c ∈ joinWithChar sep gs → c = sep ∨ ∃ g ∈ gs, c ∈ g
  | [], c, hc => by simp [joinWithChar] at hc
  | [g], c, hc => Or.inr ⟨g, by simp, hc⟩
  | g :: g2 :: gs, c, hc => by
    rcases List.mem_append.mp hc with hc | hc
    · exact Or.inr ⟨g, by simp, hc⟩
    · rcases List.mem_cons.mp hc with rfl | hc
      · exact Or.inl rfl
      · rcases joinWithChar_mem (g2 :: gs) c hc with hx | ⟨g3, hg3, hcg⟩
        · exact Or.inl hx
        · exact Or.inr ⟨g3, List.mem_cons_of_mem _ hg3, hcg⟩

theorem rendered_trim_id (s : String) (sch hst : List Char) (prt : Option Nat)
    (pth : List Char) (qopt : Option (List Char))
    (hs : s.toList = sch ++ ':' :: '/' :: '/' ::
      (hst ++ renderPort prt ++ pth ++ renderQuery qopt))
    (hs2 : ∀ c ∈ sch, isLowerAlpha c = true)
    (hh2 : ∀ c ∈ hst, isHostChar c = true)
    (hpt2 : ∀ c ∈ pth, isPathChar c = true)
    (hq : ∀ q, qopt = some q → ∀ c ∈ q, isQueryChar c = true) :
    trimModel s.toList = s.toList := by
  refine trimModel_id _ ?_
  rw [hs]
  intro c hc
  rcases List.mem_append.mp hc with hc | hc
  · have := lowerAlpha_toNat (hs2 c hc)
    exact not_ws_of_toNat (by omega)
  · rcases List.mem_cons.mp hc with rfl | hc
    · decide
    rcases List.mem_cons.mp hc with rfl | hc
    · decide
    rcases List.mem_cons.mp hc with rfl | hc
    · decide
    rcases List.mem_append.mp hc with hc | hc
    rotate_left
    · -- renderQuery
      cases qopt with
      | none => simp [renderQuery] at hc
      | some q =>
        rcases List.mem_cons.mp hc with rfl | hc
        · decide
        · rcases queryChar_cases (hq q rfl c hc) with hx | hx | hx
          · exact not_ws_unres hx
          · subst hx; decide
          · subst hx; decide
    rcases List.mem_append.mp hc with hc | hc
    rotate_left
    · -- path
      rcases pathChar_cases (hpt2 c hc) with hx | hx
      · exact not_ws_unres hx
      · subst hx; decide
    rcases List.mem_append.mp hc with hc | hc
    · -- host
      have := hostChar_toNat (hh2 c hc)
      exact not_ws_of_toNat ⟨this.2.2.2.2.1, this.2.2.2.2.2.1, this.2.2.2.2.2.2.1,
        this.2.2.2.2.2.2.2⟩
    · -- port
      cases prt with
      | none => simp [renderPort] at hc
      | some p =>
        rcases List.mem_cons.mp hc with rfl | hc
        · decide
        · have := natDigits_are_digits p c hc
          exact not_ws_of_toNat (by omega)

theorem to_normalized_url_portBack (sc : String) (ho : Option String) (po : Option Nat)
    (pa1 pa2 : String) (q1 q2 : Option String) (m : List (String × String)) (np : String) :
    to_normalized_url (ParsedUrl.mk sc ho (portBack po) pa1 q1) m np
      = to_normalized_url (ParsedUrl.mk sc ho po pa2 q2) m np := by
  unfold to_normalized_url
  cases po with
  | none => rfl
  | some p =>
    by_cases hp : p = 80
    · subst hp
      simp [portBack]
    · simp [portBack, hp]

theorem compileAll_error {R : Type} (E : RegexEngine R) :
    ∀ ps : List String, (∃ r ∈ ps, E.compile r = none) →
      ∃ r ∈ ps, E.compile r = none ∧
        compileAll E ps = Except.error (NormalizeError.RegexParseError r)
  | [], h => by simp at h
  | r :: rest, h => by
    cases hc : E.compile r with
    | none =>
      refine ⟨r, List.mem_cons_self _ _, hc, ?_⟩
      unfold compileAll
      rw [hc]
    | some re =>
      have hrest : ∃ r2 ∈ rest, E.compile r2 = none := by
        obtain ⟨r3, hr3, hc3⟩ := h
        rcases List.mem_cons.mp hr3 with rfl | hr3
        · rw [hc] at hc3
          exact Option.noConfusion hc3
        · exact ⟨r3, hr3, hc3⟩
      obtain ⟨r2, hr2, hc2, heq⟩ := compileAll_error E rest hrest
      refine ⟨r2, List.mem_cons_of_mem _ hr2, hc2, ?_⟩
      unfold compileAll
      rw [hc, heq]

theorem renderPort_ne_q {prt : Option Nat} {c : Char} (hc : c ∈ renderPort prt) :
    c ≠ '?' := by
  have := renderPort_pred prt c hc
  simp only [decide_eq_true_eq] at this
  exact fun he => this (Or.inr he)

/-! ## Claim theorems -/

/-- C1 (confirmed). For every successful `create_parameter_map` run the
resulting map's keys are strictly ascending in the byte-lexicographic order;
an empty map emits no `?` in the reassembled URL (given the other components
contain no `?`); a non-empty map is emitted as `?k1=v1&k2=v2&...` after the
path; and the spec's concrete example normalizes as stated. -/
theorem c1_query_canonicalization {R : Type} (E : RegexEngine R) (q : Option String)
    (ps : Option (List String)) (m : List (String × String))
    (h : create_parameter_map E q ps = Except.ok m) :
    m.Pairwise (fun a b => strLt a.1 b.1 = true)
    ∧ (∀ (u : ParsedUrl) (np hh : String), u.host = some hh →
        '?' ∉ u.scheme.toList → '?' ∉ hh.toList → '?' ∉ np.toList →
        '?' ∉ (to_normalized_url u [] np).toList)
    ∧ (∀ (u : ParsedUrl) (np hh : String) (m2 : List (String × String)),
        u.host = some hh → m2 ≠ [] →
        (to_normalized_url u m2 np).toList
          = u.scheme.toList ++ ':' :: '/' :: '/' ::
            (hh.toList ++ renderPort (portBack u.port) ++ np.toList ++
              '?' :: (joinStrings "&" (m2.map fun p => p.1 ++ "=" ++ p.2)).toList))
    ∧ normalizeStr noRegex "https://example.com/main.php?c=1&b=2&a=5" none
        = some (Except.ok "https://example.com/main.php?a=5&b=2&c=1") := by
  refine ⟨cpm_sorted E q ps m h, ?_, ?_, rfl⟩
  · intro u np hh hhost hq1 hq2 hq3 hmem
    rw [to_normalized_url_toList u hh hhost [] np] at hmem
    rw [if_pos (show ([] : List (String × String)).isEmpty = true from rfl)] at hmem
    rcases List.mem_append.mp hmem with hc | hc
    · exact hq1 hc
    rcases List.mem_cons.mp hc with he | hc
    · exact absurd he (by decide)
    rcases List.mem_cons.mp hc with he | hc
    · exact absurd he (by decide)
    rcases List.mem_cons.mp hc with he | hc
    · exact absurd he (by decide)
    rcases List.mem_append.mp hc with hc | hc
    rotate_left
    · simp [renderQuery] at hc
    rcases List.mem_append.mp hc with hc | hc
    rotate_left
    · exact hq3 hc
    rcases List.mem_append.mp hc with hc | hc
    · exact hq2 hc
    · exact renderPort_ne_q hc rfl
  · intro u np hh m2 hhost hm2
    rw [to_normalized_url_toList u hh hhost m2 np]
    rw [if_neg (by
      cases m2
      · exact absurd rfl hm2
      · simp)]
    rfl

theorem c1_witness : ([("a", "1"), ("b", "2")] : List (String × String)).Pairwise
    (fun a b => strLt a.1 b.1 = true) :=
  (c1_query_canonicalization noRegex (some "b=2&a=1") none [("a", "1"), ("b", "2")] rfl).1

/-- C2 counterexample. `normalize` is not idempotent: the decoded value
`1&2` (from `1%262`) re-tokenizes as two parameters on the second pass, so
normalizing the output of `normalize` changes the string again. -/
theorem c2_counterexample :
    normalizeStr noRegex "https://example.com/p?a=1%262" none
        = some (Except.ok "https://example.com/p?a=1&2")
    ∧ normalizeStr noRegex "https://example.com/p?a=1&2" none
        = some (Except.ok "https://example.com/p?2=&a=1")
    ∧ ("https://example.com/p?2=&a=1" : String) ≠ "https://example.com/p?a=1&2" :=
  ⟨rfl, rfl, by decide⟩

/-- C3 (corrected; spec-modelled URL parser). As stated the claim fails: an
opaque URL (empty path) is not returned unchanged — only the path rewriting
is skipped, while query canonicalization and reassembly still run (see the
counterexample). Amended claim: for an opaque URL `normalize_url` returns
the URL unchanged and `normalize` still canonicalizes the query and
reassembles the URL around the empty path. -/
theorem c3_opaque_skips_only_path {R : Type} (E : RegexEngine R) (u : ParsedUrl)
    (ps : Option (List String)) (h : is_opaque u = true) :
    normalize_url u = some (Except.ok u)
    ∧ normalize E u ps = some ((create_parameter_map E u.query ps).map
        (fun params => to_normalized_url u params "")) := by
  have hpath : u.path = "" := by
    simpa [ is_opaque] using h
  constructor
  · unfold normalize_url
    rw [if_pos h]
  · unfold normalize normalize_url
    rw [if_pos h]
    show (match create_parameter_map E u.query ps with
      | Except.error e => some (Except.error e)
      | Except.ok params => some (Except.ok (to_normalized_url u params (String.mk
          (joinWithChar '/' ((splitOnChar '/' u.path.toList).map
            (fun seg => (Urlencoding.encode (String.mk seg)).toList))))))) = _
    rw [hpath]
    cases hc : create_parameter_map E u.query ps with
    | error e => rfl
    | ok params => rfl

theorem c3_counterexample :
    normalizeStr noRegex "foo://example.com?b=2&a=1" none
        = some (Except.ok "foo://example.com?a=1&b=2")
    ∧ ("foo://example.com?a=1&b=2" : String) ≠ "foo://example.com?b=2&a=1" :=
  ⟨rfl, by decide⟩

theorem c3_witness :
    normalize_url (ParsedUrl.mk "foo" (some "example.com") none "" (some "b=2&a=1"))
        = some (Except.ok (ParsedUrl.mk "foo" (some "example.com") none "" (some "b=2&a=1")))
    ∧ normalize noRegex (ParsedUrl.mk "foo" (some "example.com") none "" (some "b=2&a=1")) none
        = some ((create_parameter_map noRegex (some "b=2&a=1") none).map
            (fun params => to_normalized_url
              (ParsedUrl.mk "foo" (some "example.com") none "" (some "b=2&a=1")) params "")) :=
  c3_opaque_skips_only_path noRegex
    (ParsedUrl.mk "foo" (some "example.com") none "" (some "b=2&a=1")) none rfl

/-- C4 (code_bug). On the spec's own examples the dot-segment removal does
not produce the stated results: after a `..` cancellation the outer loop of
`remove_dots` re-reads a segment whose offset was just set to `-1` (an
out-of-bounds `path[usize::MAX]` read, a panic, modelled `none`), and a path
starting with `..` underflows the `0..=i-1` ancestor scan. The spec's
intended results are "path/from/x" and a preserved "../../x". -/
theorem c4_dot_removal_panics :
    normalize_path "path/to/../from/./x" = none ∧ normalize_path "../../x" = none :=
  ⟨rfl, rfl⟩

/-- C5 (confirmed). If any removal pattern fails to compile, the whole
`create_parameter_map` call fails with `RegexParseError` carrying an
offending pattern's text, and no parameter map is produced. -/
theorem c5_regex_parse_error {R : Type} (E : RegexEngine R) (q : String) (ps : List String)
    (h : ∃ r ∈ ps, E.compile r = none) :
    ∃ r ∈ ps, E.compile r = none ∧
      create_parameter_map E (some q) (some ps)
        = Except.error (NormalizeError.RegexParseError r) := by
  obtain ⟨r, hr, hc, heq⟩ := compileAll_error E ps h
  refine ⟨r, hr, hc, ?_⟩
  unfold create_parameter_map compileRules
  show (match compileAll E ps with
    | Except.error e => Except.error e
    | Except.ok remove_rules =>
        Except.ok (processPairs E remove_rules (splitOnChar '&' q.toList) []))
    = Except.error (NormalizeError.RegexParseError r)
  rw [heq]

theorem c5_witness :
    create_parameter_map testEngine (some "a=1") (some ["["])
      = Except.error (NormalizeError.RegexParseError "[") := by
  obtain ⟨r, hr, hc, heq⟩ := c5_regex_parse_error testEngine "a=1" ["["] ⟨"[", by simp, rfl⟩
  rcases List.mem_singleton.mp hr with rfl
  exact heq

/-- C6 (confirmed). A parameter whose decoded key matches a compiled removal
pattern never appears in the produced map, and a parameter whose decoded key
matches no pattern is preserved: its key is among the map's keys. -/
theorem c6_filter_correctness {R : Type} (E : RegexEngine R) (q : String)
    (ps : Option (List String)) (m : List (String × String)) (rules : List R)
    (hc : compileRules E ps = Except.ok rules)
    (h : create_parameter_map E (some q) ps = Except.ok m) :
    (∀ kv ∈ m, ∀ re ∈ rules, E.isMatch re kv.1 = false)
    ∧ (∀ pair ∈ splitOnChar '&' q.toList, pair ≠ [] →
        ∀ kv, pairTokens pair = some kv →
        rules.any (fun re => E.isMatch re kv.1) = false →
        kv.1 ∈ m.map Prod.fst) := by
  constructor
  · exact cpm_unmatched E q ps m rules hc h
  · intro pair hp hne kv hpt hum
    obtain ⟨rules2, hc2, rfl⟩ := cpm_ok_some E q ps m h
    obtain rfl : rules = rules2 := by
      rw [hc] at hc2
      injection hc2
    exact processPairs_key_mem E rules _ [] pair kv hp hne hpt hum

theorem c6_witness :
    testEngine.isMatch "utm_" "c" = false ∧
    ("c" : String) ∈ ([("c", "1")] : List (String × String)).map Prod.fst :=
  ⟨(c6_filter_correctness testEngine "c=1&utm_a=f" (some ["utm_"])
      [("c", "1")] ["utm_"] rfl rfl).1
      ("c", "1") (by decide) "utm_" (by decide),
   (c6_filter_correctness testEngine "c=1&utm_a=f" (some ["utm_"])
      [("c", "1")] ["utm_"] rfl rfl).2
      "c=1".toList (by decide) (by decide) ("c", "1") rfl rfl⟩

/-- C7 (confirmed). In the reassembled output the port is omitted exactly
when absent or equal to 80 (a URL with port 80 reassembles identically to
one with no port), and any other explicit port is emitted after `:`.
No special-casing of 443 exists: 443 is treated like any other port. -/
theorem c7_port_omission (u : ParsedUrl) (params : List (String × String)) (np : String)
    (p : Nat) (hp : p ≠ 80) :
    to_normalized_url { u with port := some 80 } params np
        = to_normalized_url { u with port := none } params np
    ∧ to_normalized_url { u with port := some p } params np
        = u.scheme ++ "://" ++ (match u.host with | some hh => hh | none => "")
          ++ (":" ++ String.mk (natDigits p)) ++ np
          ++ (if (params.map (fun kv => kv.1 ++ "=" ++ kv.2)).isEmpty
              then joinStrings "&" (params.map (fun kv => kv.1 ++ "=" ++ kv.2))
              else "?" ++ joinStrings "&" (params.map (fun kv => kv.1 ++ "=" ++ kv.2))) := by
  constructor
  · unfold to_normalized_url
    simp
  · unfold to_normalized_url
    simp [hp]

theorem c7_witness :
    to_normalized_url (ParsedUrl.mk "https" (some "example.com") (some 80) "/a" none) [] "/a"
      = to_normalized_url (ParsedUrl.mk "https" (some "example.com") none "/a" none) [] "/a" :=
  (c7_port_omission (ParsedUrl.mk "https" (some "example.com") none "/a" none) [] "/a"
    8080 (by decide)).1

/-- C8 (confirmed). Query tokenization: zero-length tokens between `&` are
skipped; a token with no `=` yields the decoded key with empty value; a
token `=value` yields the empty key and the decoded value; `key=value`
yields both decoded (splitting at the first `=` only); and a later token
with the same decoded key overwrites the earlier binding (last wins), as on
the concrete query `k=1&k=2`. -/
theorem c8_tokenization_rules :
    (∀ {R : Type} (E : RegexEngine R) (rules : List R) (rest : List (List Char))
        (acc : List (String × String)),
      processPairs E rules ([] :: rest) acc = processPairs E rules rest acc)
    ∧ (∀ (t d : List Char), t ≠ [] → '=' ∉ t → Urlencoding.decode t = some d →
        pairTokens t = some (String.mk d, ""))
    ∧ (∀ (v dv : List Char), Urlencoding.decode v = some dv →
        pairTokens ('=' :: v) = some ("", String.mk dv))
    ∧ (∀ (k v dk dv : List Char), '=' ∉ k → Urlencoding.decode k = some dk →
        Urlencoding.decode v = some dv →
        pairTokens (k ++ '=' :: v) = some (String.mk dk, String.mk dv))
    ∧ (∀ (k v : String) (m : List (String × String)),
        lookupKey k (insertSorted k v m) = some v)
    ∧ create_parameter_map noRegex (some "k=1&k=2") none = Except.ok [("k", "2")] := by
  refine ⟨?_, pairTokens_no_eq, ?_, pairTokens_eq_split, lookupKey_insertSorted_self, rfl⟩
  · intro R E rules rest acc
    rfl
  · intro v dv hdv
    exact pairTokens_eq_split [] v [] dv (by simp) rfl hdv

theorem c8_witness :
    pairTokens ['a', 'b'] = some ("ab", "")
    ∧ pairTokens ['=', 'v'] = some ("", "v")
    ∧ pairTokens ['k', '=', 'v'] = some ("k", "v")
    ∧ lookupKey "k" (insertSorted "k" "2" [("k", "1")]) = some "2" :=
  ⟨c8_tokenization_rules.2.1 ['a', 'b'] ['a', 'b'] (by decide) (by decide) rfl,
   c8_tokenization_rules.2.2.1 ['v'] ['v'] rfl,
   c8_tokenization_rules.2.2.2.1 ['k'] ['v'] ['k'] ['v'] (by decide) rfl rfl,
   c8_tokenization_rules.2.2.2.2.1 "k" "2" [("k", "1")]⟩

/-- C9 (confirmed). After path normalization, `normalize_url` deletes every
(left-to-right, non-overlapping) occurrence of the literal substring `/$`
from the path before reassembly: the resulting URL's path is exactly the
`/$`-erased normalized path, a path without `/$` is unaffected by this step,
and the URL `https://example.com/a/$x` does not round-trip (it becomes
`https://example.com/ax`). -/
theorem c9_slash_dollar_removal (u : ParsedUrl) (np : String)
    (h1 : is_opaque u = false)
    (h2 : normalize_path u.path = some (Except.ok np)) :
    (∃ u2, normalize_url u = some (Except.ok u2)
      ∧ u2.path = String.mk (replaceSlashDollar np.toList))
    ∧ (∀ cs : List Char, hasSlashDollar cs = false → replaceSlashDollar cs = cs)
    ∧ normalizeStr noRegex "https://example.com/a/$x" none
        = some (Except.ok "https://example.com/ax") := by
  refine ⟨?_, hasSlashDollar_false_replace, rfl⟩
  unfold normalize_url
  rw [if_neg (by
    rw [h1]
    exact fun hx => Bool.noConfusion hx), h2]
  by_cases he : String.mk (replaceSlashDollar np.toList) = u.path
  · refine ⟨u, ?_, he.symm⟩
    show (if String.mk (replaceSlashDollar np.toList) = u.path then some (Except.ok u)
      else some (Except.ok { u with path := String.mk (replaceSlashDollar np.toList) }))
      = some (Except.ok u)
    rw [if_pos he]
  · refine ⟨{ u with path := String.mk (replaceSlashDollar np.toList) }, ?_, rfl⟩
    show (if String.mk (replaceSlashDollar np.toList) = u.path then some (Except.ok u)
      else some (Except.ok { u with path := String.mk (replaceSlashDollar np.toList) }))
      = some (Except.ok { u with path := String.mk (replaceSlashDollar np.toList) })
    rw [if_neg he]

theorem c9_witness :
    normalizeStr noRegex "https://example.com/a/$x" none
      = some (Except.ok "https://example.com/ax") :=
  (c9_slash_dollar_removal (ParsedUrl.mk "https" (some "example.com") none "/a/$x" none)
    "/a/$x" rfl rfl).2.2

/-- C10 (code_bug). The claimed totality of `normalize_path` fails: on
"/a/./b" the iteration after removing the `.` segment reads `segs[1] = -1`
and indexes the path buffer at `usize::MAX` (out of bounds, a panic,
modelled `none`); "/a/../b" likewise panics after the `..` cancellation,
instead of returning Ok or InternalError. -/
theorem c10_normalize_path_oob :
    normalize_path "/a/./b" = none ∧ normalize_path "/a/../b" = none :=
  ⟨rfl, rfl⟩

/-- C2 (corrected; spec-modelled URL parser). As stated — idempotence of
`normalize` for every valid URL — the claim fails, because query parameters
are emitted decoded: a decoded `&` inside a value re-tokenizes differently
(see the counterexample theorem). Amended claim: for a URL whose scheme is
non-empty lower-case alphabetic, whose host is present and made of plain
host characters, whose port (if any) fits in 16 bits, whose path starts with
`/`, consists of unreserved characters and slashes and is already in normal
form, and whose query (if any) consists of unreserved characters, `=` and
`&`, normalize is idempotent: constructing a normalizer on the string
produced by `normalize` and normalizing again yields the same string. -/
theorem c2_normalize_idempotent_restricted {R : Type} (E : RegexEngine R) (u : ParsedUrl)
    (ps : Option (List String)) (s : String)
    (hs1 : u.scheme ≠ "") (hs2 : ∀ c ∈ u.scheme.toList, isLowerAlpha c = true)
    (hh : ∃ h, u.host = some h ∧ ∀ c ∈ h.toList, isHostChar c = true)
    (hp : ∀ p, u.port = some p → p < 65536)
    (hp1 : u.path.toList.head? = some '/')
    (hp2 : ∀ c ∈ u.path.toList, isPathChar c = true)
    (hp3 : needs_normalization u.path.toList.toArray < 0)
    (hq : ∀ q, u.query = some q → ∀ c ∈ q.toList, isQueryChar c = true)
    (hrun : normalize E u ps = some (Except.ok s)) :
    normalizeStr E s ps = some (Except.ok s) := by
  obtain ⟨h, hh1, hh2⟩ := hh
  have hrun2 := normalize_run E u ps hp1 hp2 hp3
  rw [hrun] at hrun2
  obtain ⟨m, hcpm, hsm⟩ : ∃ m, create_parameter_map E u.query ps = Except.ok m ∧
      s = to_normalized_url u m u.path := by
    cases hc : create_parameter_map E u.query ps with
    | error e =>
      rw [hc] at hrun2
      exact absurd hrun2 (by simp [Except.map])
    | ok m2 =>
      rw [hc] at hrun2
      refine ⟨m2, rfl, ?_⟩
      have h2 : Except.ok (ε := NormalizeError) s =
          Except.map (fun params => to_normalized_url u params u.path) (Except.ok m2) := by
        injection hrun2
      simpa [Except.map] using h2
  have hqsome : m ≠ [] → ∃ qq, u.query = some qq := by
    intro hm
    cases hu : u.query with
    | some qq => exact ⟨qq, rfl⟩
    | none =>
      rw [hu] at hcpm
      unfold create_parameter_map at hcpm
      injection hcpm with h2
      exact absurd h2.symm hm
  have hentry : ∀ kv ∈ m, (∀ c ∈ kv.1.toList, isUnresChar c = true) ∧
      (∀ c ∈ kv.2.toList, isUnresChar c = true ∨ c = '=') := by
    intro kv hkv
    have hm : m ≠ [] := by
      intro he
      rw [he] at hkv
      exact List.not_mem_nil _ hkv
    obtain ⟨qq, hqq⟩ := hqsome hm
    rw [hqq] at hcpm
    exact cpm_chars E qq ps m (hq qq hqq) hcpm kv hkv
  have hsList := to_normalized_url_toList u h hh1 m u.path
  rw [← hsm] at hsList
  have hqchars : ∀ q2, (if m.isEmpty then none
      else some (joinStrings "&" (m.map fun p => p.1 ++ "=" ++ p.2)).toList) = some q2 →
      ∀ c ∈ q2, isQueryChar c = true := by
    intro q2 hq2 c hc
    by_cases hm : m.isEmpty
    · rw [if_pos hm] at hq2
      exact Option.noConfusion hq2
    · rw [if_neg hm] at hq2
      injection hq2 with hq2
      subst hq2
      rw [joinStrings_toList] at hc
      rcases joinWithChar_mem _ c hc with rfl | ⟨g, hg, hcg⟩
      · decide
      · rcases List.mem_map.mp hg with ⟨kv, hkv, rfl⟩
        rcases List.mem_append.mp hcg with hcc | hcc
        · have := (hentry kv hkv).1 c hcc
          simp [isQueryChar, this]
        · rcases List.mem_cons.mp hcc with rfl | hcc
          · decide
          · rcases (hentry kv hkv).2 c hcc with hx | hx
            · simp [isQueryChar, hx]
            · subst hx
              decide
  have htrim := rendered_trim_id s u.scheme.toList h.toList (portBack u.port)
    u.path.toList _ hsList hs2 hh2 hp2 hqchars
  have hnoq : '?' ∉ u.path.toList := by
    intro hm2
    rcases pathChar_cases (hp2 '?' hm2) with hx | hx
    · exact (unres_toNat_facts hx).2.2.2.2.2.1 rfl
    · exact absurd hx (by decide)
  have hpback : ∀ p, portBack u.port = some p → p < 65536 := by
    intro p hpx
    cases hu : u.port with
    | none =>
      rw [hu] at hpx
      exact Option.noConfusion hpx
    | some p2 =>
      rw [hu] at hpx
      have hpx2 : (if p2 = 80 then none else some p2) = some p := hpx
      split_ifs at hpx2 with h80
      injection hpx2 with hpx2
      subst hpx2
      exact hp p2 hu
  have hparse := parseUrl_inv s u.scheme.toList h.toList (portBack u.port)
    u.path.toList _ hsList (toList_ne_nil hs1) hs2 hh2 hpback hp1 hnoq
  unfold normalizeStr new
  rw [htrim, mk_toList, hparse]
  rw [mk_toList, mk_toList]
  have hrun3 := normalize_run E (ParsedUrl.mk u.scheme (some (String.mk h.toList))
    (portBack u.port) u.path
    ((if m.isEmpty then none
      else some (joinStrings "&" (m.map fun p => p.1 ++ "=" ++ p.2)).toList).map String.mk))
    ps hp1 hp2 hp3
  rw [mk_toList] at hrun3
  show normalize E (ParsedUrl.mk u.scheme (some h) (portBack u.port) u.path
    ((if m.isEmpty then none
      else some (joinStrings "&" (m.map fun p => p.1 ++ "=" ++ p.2)).toList).map String.mk))
    ps = some (Except.ok s)
  rw [hrun3]
  by_cases hm : m.isEmpty
  · have hm2 : m = [] := by
      cases m
      · rfl
      · exact Bool.noConfusion hm
    subst hm2
    rw [if_pos (show ([] : List (String × String)).isEmpty = true from rfl)]
    show some (Except.map (fun params => to_normalized_url (ParsedUrl.mk u.scheme (some h)
      (portBack u.port) u.path none) params u.path)
      (create_parameter_map E none ps)) = some (Except.ok s)
    unfold create_parameter_map
    show some (Except.ok (to_normalized_url (ParsedUrl.mk u.scheme (some h)
      (portBack u.port) u.path none) [] u.path)) = some (Except.ok s)
    rw [to_normalized_url_portBack u.scheme (some h) u.port u.path u.path none u.query [] u.path]
    rw [hsm, ← hh1]
  · rw [if_neg hm]
    have hmne : m ≠ [] := by
      intro he
      subst he
      exact hm rfl
    obtain ⟨qq, hqq⟩ := hqsome hmne
    rw [hqq] at hcpm
    obtain ⟨rules, hcrules, -⟩ := cpm_ok_some E qq ps m hcpm
    show some (Except.map (fun params => to_normalized_url (ParsedUrl.mk u.scheme (some h)
      (portBack u.port) u.path (some (String.mk (joinStrings "&"
        (m.map fun p => p.1 ++ "=" ++ p.2)).toList))) params u.path)
      (create_parameter_map E (some (String.mk (joinStrings "&"
        (m.map fun p => p.1 ++ "=" ++ p.2)).toList)) ps)) = some (Except.ok s)
    rw [mk_toList]
    have humm : ∀ kv ∈ m, rules.any (fun re => E.isMatch re kv.1) = false := by
      intro kv hkv
      refine List.any_eq_false.mpr ?_
      intro re hre
      rw [cpm_unmatched E qq ps m rules hcrules hcpm kv hkv re hre]
      exact fun hcon => Bool.noConfusion hcon
    rw [cpm_render E ps rules m hcrules hentry humm (cpm_sorted E (some qq) ps m hcpm) hmne]
    show some (Except.ok (to_normalized_url (ParsedUrl.mk u.scheme (some h)
      (portBack u.port) u.path (some (joinStrings "&" (m.map fun p => p.1 ++ "=" ++ p.2))))
      m u.path)) = some (Except.ok s)
    rw [to_normalized_url_portBack u.scheme (some h) u.port u.path u.path
      (some (joinStrings "&" (m.map fun p => p.1 ++ "=" ++ p.2))) u.query m u.path]
    rw [hsm, ← hh1]

theorem c2_witness :
    normalizeStr noRegex "https://example.com/main.php?a=5&b=2&c=1" none
      = some (Except.ok "https://example.com/main.php?a=5&b=2&c=1") :=
  c2_normalize_idempotent_restricted noRegex
    (ParsedUrl.mk "https" (some "example.com") none "/main.php" (some "c=1&b=2&a=5"))
    none "https://example.com/main.php?a=5&b=2&c=1"
    (by decide) (by decide)
    ⟨"example.com", rfl, by decide⟩
    (by
      intro p hp
      exact Option.noConfusion hp)
    rfl (by decide) (by decide)
    (by
      intro q hq
      injection hq with hq
      subst hq
      decide)
    rfl

end UrlNorm
